import Mathlib

/-!
Shallow embedding of the jansson-cpp JSON library (src/src/*.cpp, *.hpp),
covering the value model (json_value.cpp/hpp), the UTF-8 validator and
string escaper (string_utils.cpp), the recursive-descent parser
(json_parser.cpp) and the serializer (json_serializer.cpp).

Modelling conventions:
- C++ byte strings (std::string / std::string_view) are `List Nat`, one Nat
  per byte (meaningful values are < 256; theorems that need the bound state
  it as a hypothesis).
- The C++ parser walks a read-only buffer with a cursor; the embedding
  passes the remaining suffix of the input instead, which is observationally
  identical because the input is never re-read behind the cursor.
- Exceptions (`JsonException`) become `Except String` with the exception
  message; `Result<T>` at the `parse` boundary becomes
  `Except JsonErrorCode JsonValue`, exactly as json_parser.cpp maps
  exceptions to `ParseError` and trailing input to `SyntaxError`.
- `double` is modelled as `ℚ` (exact rationals). `std::stod` is modelled as
  the exact rational value of the literal, and the serializer's
  `os << num` default formatting (6 significant digits, defaultfloat) is
  modelled by `gFormat6` below on rationals; binary IEEE-754 rounding is
  abstracted away. Claims that hinge on exact double bit-patterns are out of
  scope of this embedding.
- The unbounded `while (true)` loops of the C++ (string scanning, digit
  scanning) are modelled with an explicit fuel argument initialised to
  `length + 1`; a loop iteration always consumes at least one byte except
  when the C++ would spin forever at end of input (e.g. an unterminated
  string literal makes `parse_raw_string` loop forever since `consume`
  returns '\0' without advancing), in which case the model returns an
  error instead of diverging.
-/

namespace Jansson

/-- Byte strings: one `Nat` per byte of the C++ `std::string`. -/
abbrev Bytes := List Nat

/-! ### Error codes (json_error.hpp) -/

/-- The closed error-kind enumeration of `JsonErrorCode` in json_error.hpp. -/
inductive JsonErrorCode where
  | Success
  | MemoryAllocationFailed
  | InvalidUTF8
  | SyntaxError
  | InvalidType
  | KeyNotFound
  | IndexOutOfBounds
  | InvalidArgument
  | ParseError
  | SerializationError
  | NotImplemented
  | UnknownError
deriving DecidableEq, Repr

/-- The fixed message table of `JsonErrorCategory::message` in json_error.cpp. -/
def JsonErrorCode.message : JsonErrorCode → String
  | .Success => "Success"
  | .MemoryAllocationFailed => "Memory allocation failed"
  | .InvalidUTF8 => "Invalid UTF-8 sequence"
  | .SyntaxError => "JSON syntax error"
  | .InvalidType => "Invalid type"
  | .KeyNotFound => "Key not found"
  | .IndexOutOfBounds => "Index out of bounds"
  | .InvalidArgument => "Invalid argument"
  | .ParseError => "Parse error"
  | .SerializationError => "Serialization error"
  | .NotImplemented => "Not implemented"
  | .UnknownError => "Unknown error"

/-! ### The value model (json_value.hpp / json_value.cpp)

The C++ virtual hierarchy `JsonNull`/`JsonBoolean`/`JsonNumber`/
`JsonStringValue`/`JsonArray`/`JsonObject` under `JsonValue` is one closed
sum. `JsonObject`'s backing store `JsonHash` is a thin wrapper around
`std::unordered_map` (json_hash.hpp); it is modelled as an association list
whose order stands for the map's (unspecified) iteration order, with
`operator[]` assignment keeping an existing key's position and appending a
new key. -/

inductive JsonValue where
  | null
  | boolean (b : Bool)
  | number (q : ℚ)
  | string (s : Bytes)
  | array (elems : List JsonValue)
  | object (entries : List (Bytes × JsonValue))

/-! ### UTF-8 validation (string_utils.cpp, JsonString::validate_utf8) -/

/-! Direct translation of the `validate_utf8` byte-walk: classify the
leading byte by mask, check continuation bytes against `10xxxxxx`,
reassemble the code point and reject overlong forms, surrogates (3-byte
case) and values beyond U+10FFFF (4-byte case). The C++ `while` loop over
the cursor is modelled with a fuel argument (one tick per loop iteration
plus one per multi-byte classification); `length + 1` ticks always
suffice because every iteration consumes at least one byte, so the
wrapper `validate_utf8` is total and agrees with the source on every
input. -/

mutual
/-- The `while (i < length)` loop of `validate_utf8`. -/
def validateLoop (fuel : Nat) (s : Bytes) : Bool :=
  match fuel with
  | 0 => false
  | fuel + 1 =>
    match s with
    | [] => true
    | b :: rest =>
      if b &&& 0x80 == 0x00 then validateLoop fuel rest
      else if b &&& 0xE0 == 0xC0 then validateTwo fuel b rest
      else if b &&& 0xF0 == 0xE0 then validateThree fuel b rest
      else if b &&& 0xF8 == 0xF0 then validateFour fuel b rest
      else false

/-- The `num_bytes == 2` arm: continuation check, code-point reassembly,
overlong rejection. -/
def validateTwo (fuel : Nat) (b : Nat) (rest : Bytes) : Bool :=
  match fuel with
  | 0 => false
  | fuel + 1 =>
    match rest with
    | b1 :: rest2 =>
      if b1 &&& 0xC0 != 0x80 then false
      else
        let cp := (b &&& 0x1F) <<< 6 ||| (b1 &&& 0x3F)
        if cp < 0x80 then false else validateLoop fuel rest2
    | _ => false

/-- The `num_bytes == 3` arm: continuation checks, overlong and surrogate
rejection. -/
def validateThree (fuel : Nat) (b : Nat) (rest : Bytes) : Bool :=
  match fuel with
  | 0 => false
  | fuel + 1 =>
    match rest with
    | b1 :: b2 :: rest3 =>
      if b1 &&& 0xC0 != 0x80 || b2 &&& 0xC0 != 0x80 then false
      else
        let cp := (b &&& 0x0F) <<< 12 ||| (b1 &&& 0x3F) <<< 6 ||| (b2 &&& 0x3F)
        if cp < 0x800 then false
        else if 0xD800 ≤ cp ∧ cp ≤ 0xDFFF then false
        else validateLoop fuel rest3
    | _ => false

/-- The `num_bytes == 4` arm: continuation checks, overlong rejection and
the U+10FFFF bound. -/
def validateFour (fuel : Nat) (b : Nat) (rest : Bytes) : Bool :=
  match fuel with
  | 0 => false
  | fuel + 1 =>
    match rest with
    | b1 :: b2 :: b3 :: rest4 =>
      if b1 &&& 0xC0 != 0x80 || b2 &&& 0xC0 != 0x80 || b3 &&& 0xC0 != 0x80 then false
      else
        let cp := (b &&& 0x07) <<< 18 ||| (b1 &&& 0x3F) <<< 12 |||
                  (b2 &&& 0x3F) <<< 6 ||| (b3 &&& 0x3F)
        if cp < 0x10000 then false
        else if cp > 0x10FFFF then false
        else validateLoop fuel rest4
    | _ => false
end

/-- `JsonString::validate_utf8` (string_utils.cpp lines 38-113). -/
def validate_utf8 (s : Bytes) : Bool := validateLoop (2 * s.length + 1) s

/-- Construction of the validating helper class `JsonString`
(string_utils.cpp constructors): store the bytes, or throw
`JsonException` when `validate_utf8` rejects them. -/
def mkJsonString (s : Bytes) : Except String Bytes :=
  if validate_utf8 s then .ok s else .error "Invalid UTF-8 sequence in JsonString"

/-! ### Escaping (string_utils.cpp, JsonString::escape) -/

/-- Lower-case hex digit byte for a nibble, as `std::hex` prints it. -/
def hexDigitByte (n : Nat) : Nat :=
  if n < 10 then 48 + n else 87 + n

/-- Four lower-case hex digit bytes of `n`, zero padded, as
`std::hex << std::setw(4) << std::setfill('0')` prints a small int. -/
def hex4Bytes (n : Nat) : Bytes :=
  [hexDigitByte (n >>> 12 &&& 0xF), hexDigitByte (n >>> 8 &&& 0xF),
   hexDigitByte (n >>> 4 &&& 0xF), hexDigitByte (n &&& 0xF)]

/-- One byte of `JsonString::escape`'s loop body: the named two-character
escapes, `\u00XX` for remaining control bytes below 0x20, everything else
verbatim. Byte values: 34 `"`, 92 backslash, 8 BS, 12 FF, 10 LF, 13 CR,
9 TAB; 98 `b`, 102 `f`, 110 `n`, 114 `r`, 116 `t`, 117 `u`. -/
def escapeByte (c : Nat) : Bytes :=
  if c == 34 then [92, 34]
  else if c == 92 then [92, 92]
  else if c == 8 then [92, 98]
  else if c == 12 then [92, 102]
  else if c == 10 then [92, 110]
  else if c == 13 then [92, 114]
  else if c == 9 then [92, 116]
  else if c < 0x20 then 92 :: 117 :: hex4Bytes c
  else [c]

/-- `JsonString::escape`: wrap in quotes, escape each byte. -/
def escape (input : Bytes) : Bytes :=
  34 :: (input.flatMap escapeByte ++ [34])

/-! ### `\uXXXX` decoding shared by unescape and the parser -/

/-- The whitespace bytes `std::stoi` skips before the number (space, tab,
newline, carriage return cover everything four parser-consumed bytes can
contain here). -/
def isWsByte0 (b : Nat) : Bool := b == 32 || b == 9 || b == 10 || b == 13

/-- Value of one hex digit byte, as `std::stoi(.., 16)` accepts digits:
`0-9`, `a-f`, `A-F`. -/
def hexVal? (b : Nat) : Option Nat :=
  if 48 ≤ b ∧ b ≤ 57 then some (b - 48)
  else if 97 ≤ b ∧ b ≤ 102 then some (b - 87)
  else if 65 ≤ b ∧ b ≤ 70 then some (b - 55)
  else none

/-- Longest hex-digit prefix of `bs` folded into `acc`, with the count of
digits consumed; models how `std::stoi(s, nullptr, 16)` reads the longest
valid prefix. -/
def hexPrefix (acc : Nat) : Bytes → Nat × Nat
  | [] => (acc, 0)
  | b :: rest =>
    match hexVal? b with
    | some v => let (r, k) := hexPrefix (acc * 16 + v) rest; (r, k + 1)
    | none => (acc, 0)

/-- Model of `std::stoi(hex_str, nullptr, 16)` on the (up to) four bytes the
caller collected: optional leading whitespace, optional sign, then at least
one hex digit (otherwise `std::invalid_argument` is thrown, modelled as
`none`). The numeric value may be negative when a `-` sign was consumed. -/
def stoiHex (s : Bytes) : Option Int :=
  let s1 := s.dropWhile isWsByte0
  let (neg, s2) : Bool × Bytes :=
    match s1 with
    | [] => (false, [])
    | c :: r =>
      if c = 45 then (true, r) else if c = 43 then (false, r) else (false, c :: r)
  let (v, k) := hexPrefix 0 s2
  if k = 0 then none else some (if neg then -(v : Int) else (v : Int))

/-- The code-point-to-UTF-8 cascade appearing verbatim in both
`JsonString::unescape` and `JsonParser::parse_raw_string`: 1 to 4 bytes by
range. A negative `code_point` (possible because `std::stoi` accepts a
sign) satisfies `code_point <= 0x7F` and is appended through the C++
`static_cast<char>`, i.e. reduced mod 256; beyond 0x10FFFF nothing is
appended (no final else in the source). -/
def codePointUtf8 (cp : Int) : Bytes :=
  if cp ≤ 0x7F then [((cp % 256 + 256) % 256).toNat]
  else if cp ≤ 0x7FF then
    [(0xC0 ||| ((cp.toNat >>> 6) &&& 0x1F)), (0x80 ||| (cp.toNat &&& 0x3F))]
  else if cp ≤ 0xFFFF then
    [(0xE0 ||| ((cp.toNat >>> 12) &&& 0x0F)), (0x80 ||| ((cp.toNat >>> 6) &&& 0x3F)),
     (0x80 ||| (cp.toNat &&& 0x3F))]
  else if cp ≤ 0x10FFFF then
    [(0xF0 ||| ((cp.toNat >>> 18) &&& 0x07)), (0x80 ||| ((cp.toNat >>> 12) &&& 0x3F)),
     (0x80 ||| ((cp.toNat >>> 6) &&& 0x3F)), (0x80 ||| (cp.toNat &&& 0x3F))]
  else []

/-! ### Unescaping (string_utils.cpp, JsonString::unescape) -/

/-- Loop body of `JsonString::unescape` over the bytes strictly between the
quotes. A backslash with nothing after it inside the body is the
`i >= input.length() - 1` error; a `\u` with fewer than four bytes left in
the body is the `i + 4 > input.length() - 1` error. Byte values as in
`escapeByte`; 47 is `/`. -/
def unescapeBody : Bytes → Except String Bytes
  | [] => .ok []
  | 92 :: [] => .error "Invalid escape sequence"
  | 92 :: next :: rest =>
    if next == 34 then (unescapeBody rest).map (34 :: ·)
    else if next == 92 then (unescapeBody rest).map (92 :: ·)
    else if next == 47 then (unescapeBody rest).map (47 :: ·)
    else if next == 98 then (unescapeBody rest).map (8 :: ·)
    else if next == 102 then (unescapeBody rest).map (12 :: ·)
    else if next == 110 then (unescapeBody rest).map (10 :: ·)
    else if next == 114 then (unescapeBody rest).map (13 :: ·)
    else if next == 116 then (unescapeBody rest).map (9 :: ·)
    else if next == 117 then
      match rest with
      | h1 :: h2 :: h3 :: h4 :: rest4 =>
        match stoiHex [h1, h2, h3, h4] with
        | some cp => (unescapeBody rest4).map (codePointUtf8 cp ++ ·)
        | none => .error "Invalid Unicode escape sequence"
      | _ => .error "Invalid Unicode escape sequence"
    else .error "Invalid escape sequence"
  | c :: rest => (unescapeBody rest).map (c :: ·)

/-- `JsonString::unescape`: require surrounding quotes, then process the
body. The source checks `input.front() != dquote || input.back() != dquote`
after an emptiness check, and iterates indices 1 .. length-2. -/
def unescape (input : Bytes) : Except String Bytes :=
  if input.head? = some 34 ∧ input.getLast? = some 34 ∧ input ≠ [] then
    unescapeBody (input.drop 1).dropLast
  else .error "Invalid JSON string format"

end Jansson

namespace Jansson

/-! ### Value-model operations (json_value.cpp) -/

/-- `JsonStringValue::create` (json_value.hpp): wraps the constructor
`JsonStringValue::JsonStringValue` (json_value.cpp lines 51-58), which
stores the given bytes verbatim. No UTF-8 validation happens on this path:
the validating `JsonString` helper of string_utils.cpp is not used here. -/
def JsonStringValue.create (s : Bytes) : JsonValue :=
  .string s

/-- `JsonValue::string_value`: the payload for a String node, otherwise the
`JsonException` thrown by the base-class default (json_value.cpp). -/
def stringValue : JsonValue → Except String Bytes
  | .string s => .ok s
  | _ => .error "Value is not a string"

/-- `JsonArray::at` (json_value.cpp lines 73-78): `values_[index]` under an
explicit bounds check, throwing `JsonException("Array index out of bounds")`
for `index >= values_.size()`. The receiver is `const`; the embedding takes
the element list and returns only the element, so the array is untouched by
construction. -/
def JsonArray.at (values : List JsonValue) (index : Nat) : Except String JsonValue :=
  if h : index < values.length then .ok (values.get ⟨index, h⟩)
  else .error "Array index out of bounds"

/-- `JsonObject::get`: first (= the map's unique) entry for the key, or the
null pointer, modelled as `none`. -/
def JsonObject.get (entries : List (Bytes × JsonValue)) (key : Bytes) : Option JsonValue :=
  match entries with
  | [] => none
  | (k, v) :: rest => if k = key then some v else JsonObject.get rest key

/-- `JsonObject::set` (json_value.cpp lines 123-125): `values_[key] = value`,
i.e. `std::unordered_map::operator[]` followed by assignment — replace the
value of an existing key in place, or insert the key (the association-list
model appends; entry order stands for the map's unspecified iteration
order). -/
def JsonObject.set (entries : List (Bytes × JsonValue)) (key : Bytes) (value : JsonValue) :
    List (Bytes × JsonValue) :=
  match entries with
  | [] => [(key, value)]
  | (k, v) :: rest =>
    if k = key then (k, value) :: rest else (k, v) :: JsonObject.set rest key value

/-- `JsonObject::has` via `JsonHash::contains`. -/
def JsonObject.has (entries : List (Bytes × JsonValue)) (key : Bytes) : Bool :=
  (JsonObject.get entries key).isSome

/-- `JsonObject::erase` via `std::unordered_map::erase` (the map holds the
key at most once; the model removes the first entry with the key). -/
def JsonObject.erase (entries : List (Bytes × JsonValue)) (key : Bytes) :
    List (Bytes × JsonValue) :=
  match entries with
  | [] => []
  | (k, v) :: rest => if k = key then rest else (k, v) :: JsonObject.erase rest key

/-! ### Structural equality (json_value.cpp, the `equals` overrides) -/

/-- The numeric tolerance `1e-12` of `JsonNumber::equals`. -/
def numTolerance : ℚ := 1 / 1000000000000

mutual
/-- `JsonValue::equals` dispatch: each variant's override from
json_value.cpp. Null matches any null; booleans and strings by payload;
numbers by `abs(other.number_value() - value_) < 1e-12`; arrays by length
and pairwise `equals`; objects by size and per-key lookup in the other
(order-independent). -/
def eqVal : JsonValue → JsonValue → Bool
  | .null, other => match other with | .null => true | _ => false
  | .boolean b, other => match other with | .boolean c => c == b | _ => false
  | .number q, other =>
    match other with
    | .number p => decide (|p - q| < numTolerance)
    | _ => false
  | .string s, other => match other with | .string t => t == s | _ => false
  | .array xs, other =>
    match other with
    | .array ys => xs.length == ys.length && eqValList xs ys
    | _ => false
  | .object es, other =>
    match other with
    | .object fs => es.length == fs.length && eqValEntries es fs
    | _ => false

/-- The index loop of `JsonArray::equals` (sizes already matched). -/
def eqValList : List JsonValue → List JsonValue → Bool
  | [], _ => true
  | _ :: _, [] => false
  | x :: xs, y :: ys => eqVal x y && eqValList xs ys

/-- The per-key loop of `JsonObject::equals`: every key of the left object
is found in the right one with an `equals` value. -/
def eqValEntries : List (Bytes × JsonValue) → List (Bytes × JsonValue) → Bool
  | [], _ => true
  | (k, v) :: rest, fs =>
    match JsonObject.get fs k with
    | some w => eqVal v w && eqValEntries rest fs
    | none => false
end

/-! ### Number rendering (json_serializer.cpp lines 17-26)

`std::floor(num) == num` on a rational double is `q.den = 1`; the
`static_cast<int64_t>` branch then prints the integer (theorems about this
branch carry the int64-range bound the cast needs). The else branch
`os << num` is the iostream default: defaultfloat with 6 significant
digits; `gFormat6` reproduces that decimal rendering on the exact rational
(IEEE-754 binary rounding of the stored double is abstracted away). -/

/-- Decimal digit bytes of `n`, most significant first, before `acc`; the
fuel is only a structural-recursion bound (`n + 1` always suffices). -/
def natDigitsAux (fuel : Nat) (n : Nat) (acc : Bytes) : Bytes :=
  match fuel with
  | 0 => acc
  | fuel + 1 =>
    if n < 10 then (48 + n % 10) :: acc
    else natDigitsAux fuel (n / 10) ((48 + n % 10) :: acc)

/-- Decimal digit bytes of a natural number. -/
def natDigits (n : Nat) : Bytes := natDigitsAux (n + 1) n []

/-- Decimal rendering of an integer: optional `-` (45), then digits. -/
def intBytes (i : Int) : Bytes :=
  (if i < 0 then [45] else []) ++ natDigits i.natAbs

/-- Floor of log10 of a positive rational, by digit counts with at most one
correction step. -/
def floorLog10 (q : ℚ) : Int :=
  if q = 0 then 0
  else
    let n := (natDigits q.num.natAbs).length
    let d := (natDigits q.den).length
    let e0 : Int := (n : Int) - (d : Int) - 1
    if |q| < 10 ^ e0 then e0 - 1
    else if |q| < 10 ^ (e0 + 1) then e0
    else e0 + 1

/-- Strip trailing `0` digit bytes, then a trailing `.` byte, as `%g`-style
formatting drops them. -/
def stripTrailingZeros (s : Bytes) : Bytes :=
  let r := (s.reverse.dropWhile (fun b => b == 48)).dropWhile (fun b => b == 46)
  r.reverse

/-- Fixed-notation digit string for significand digits `ds` (6 of them) with
the decimal point after position `e + 1` (`e` = floor log10), for the
`-4 <= e < 6` regime of defaultfloat. -/
def gFixed (ds : Bytes) (e : Int) : Bytes :=
  if e ≥ 0 then
    let k := e.toNat + 1
    if k ≥ ds.length then ds ++ List.replicate (k - ds.length) 48
    else stripTrailingZeros (ds.take k ++ [46] ++ ds.drop k)
  else
    stripTrailingZeros (48 :: 46 :: (List.replicate (-(e + 1)).toNat 48 ++ ds))

/-- Scientific-notation rendering `d.ddddd e±XX` for the remaining regime. -/
def gSci (ds : Bytes) (e : Int) : Bytes :=
  let mant := stripTrailingZeros (ds.take 1 ++ [46] ++ ds.drop 1)
  let av := e.natAbs
  let expDigits := if av < 10 then 48 :: natDigits av else natDigits av
  mant ++ [101, if e < 0 then 45 else 43] ++ expDigits

/-- Defaultfloat 6-significant-digit rendering of a nonzero rational: round
the significand to six digits, then fixed or scientific notation by
exponent, as `operator<<(ostream, double)` does with default precision. -/
def gFormat6 (q : ℚ) : Bytes :=
  if q = 0 then [48]
  else
    let s : Bytes := if q < 0 then [45] else []
    let a := |q|
    let e := floorLog10 a
    let sig : Int := round (a * 10 ^ (5 - e))
    let (sig, e) := if sig ≥ 10 ^ (6 : ℕ) then (sig / 10, e + 1) else (sig, e)
    let ds := natDigits sig.natAbs
    let ds := ds ++ List.replicate (6 - ds.length) 48
    if -4 ≤ e ∧ e < 6 then s ++ gFixed ds e else s ++ gSci ds e

/-- The number branch of `JsonSerializer::serialize_value`. -/
def serializeNumber (q : ℚ) : Bytes :=
  if q.den = 1 then intBytes q.num else gFormat6 q

end Jansson

namespace Jansson

/-! ### The serializer (json_serializer.cpp)

`serialize_value` / `serialize_array` / `serialize_object`, with
`pretty_print`, `indent` and `current_indent` exactly as in the source.
Byte values: 91 `[`, 93 `]`, 123 open brace, 125 close brace, 44 `,`,
58 `:`, 32 space, 10 newline. -/

mutual
/-- `JsonSerializer::serialize_value`: dispatch on the node's type. -/
def serializeValue (pretty : Bool) (indent curInd : Nat) : JsonValue → Bytes
  | .null => [110, 117, 108, 108]
  | .boolean b => if b then [116, 114, 117, 101] else [102, 97, 108, 115, 101]
  | .number q => serializeNumber q
  | .string s => escape s
  | .array xs =>
    91 :: (if pretty then [10] else []) ++
      serializeItems pretty indent curInd true xs ++
      (if pretty && !xs.isEmpty then 10 :: List.replicate curInd 32 else []) ++ [93]
  | .object es =>
    123 :: (if pretty then [10] else []) ++
      serializeMembers pretty indent curInd true es ++
      (if pretty && !es.isEmpty then 10 :: List.replicate curInd 32 else []) ++ [125]

/-- The element loop of `serialize_array`: separator for non-first items
(`,` then newline in pretty mode, space otherwise), per-item indentation in
pretty mode, then the item at `current_indent + indent`. -/
def serializeItems (pretty : Bool) (indent curInd : Nat) (first : Bool) :
    List JsonValue → Bytes
  | [] => []
  | item :: rest =>
    (if !first then 44 :: (if pretty then [10] else [32]) else []) ++
    (if pretty then List.replicate (curInd + indent) 32 else []) ++
    serializeValue pretty indent (curInd + indent) item ++
    serializeItems pretty indent curInd false rest

/-- The member loop of `serialize_object`: separator, indentation, escaped
key, `" : "` in pretty mode or `": "` otherwise, then the value. -/
def serializeMembers (pretty : Bool) (indent curInd : Nat) (first : Bool) :
    List (Bytes × JsonValue) → Bytes
  | [] => []
  | (key, value) :: rest =>
    (if !first then 44 :: (if pretty then [10] else [32]) else []) ++
    (if pretty then List.replicate (curInd + indent) 32 else []) ++
    escape key ++
    (if pretty then [32, 58, 32] else [58, 32]) ++
    serializeValue pretty indent (curInd + indent) value ++
    serializeMembers pretty indent curInd false rest
end

/-- `JsonSerializer::serialize(value, pretty_print, indent)`: the public
entry point starts at `current_indent = 0` (json_serializer.cpp
lines 120-124). -/
def serialize (v : JsonValue) (pretty : Bool) (indent : Nat) : Bytes :=
  serializeValue pretty indent 0 v

/-! ### The parser (json_parser.cpp)

State is the remaining input suffix. `skip_whitespace`, `peek`, `consume`
and `expect` as in the source: both `peek` and `consume` skip leading
whitespace first and yield the byte 0 at end of input (`consume` without
advancing). -/

/-- ASCII whitespace accepted by `JsonParser::skip_whitespace`:
space, tab, newline, carriage return. -/
def isWsByte (b : Nat) : Bool := b == 32 || b == 9 || b == 10 || b == 13

/-- `JsonParser::skip_whitespace`. -/
def skipWs (s : Bytes) : Bytes := s.dropWhile isWsByte

/-- `JsonParser::peek`: next byte after whitespace, 0 at end of input. -/
def peek (s : Bytes) : Nat :=
  match skipWs s with
  | [] => 0
  | c :: _ => c

/-- `JsonParser::consume`: like `peek` but also advances past the byte. -/
def consume (s : Bytes) : Nat × Bytes :=
  match skipWs s with
  | [] => (0, [])
  | c :: r => (c, r)

/-- `JsonParser::expect`: consume one byte and require it to be
`expected`; the source's message interpolates the characters, which the
embedding flattens to a fixed message (no claim depends on it). -/
def expect (expected : Nat) (s : Bytes) : Except String Bytes :=
  let (c, r) := consume s
  if c = expected then .ok r else .error "Expected a specific character"

/-- `isdigit` on a byte: 48 `0` to 57 `9`. -/
def isDigitByte (b : Nat) : Bool := 48 ≤ b && b ≤ 57

/-- Loop body of `JsonParser::parse_raw_string` after the opening quote:
read bytes through the whitespace-skipping `consume` until a closing quote,
translating backslash escapes; a `\uXXXX` escape consumes four bytes,
converts via `std::stoi(..,16)` and appends the UTF-8 cascade. Fuel
bounds the loop; when the source would spin forever at end of input
(consume keeps yielding 0 without advancing) the model errors out. -/
def parseRawStringLoop (fuel : Nat) (acc : Bytes) (s : Bytes) :
    Except String (Bytes × Bytes) :=
  match fuel with
  | 0 => .error "Unterminated string: the source loops forever here"
  | fuel + 1 =>
    let (c, s1) := consume s
    if c = 34 then .ok (acc, s1)
    else if c = 92 then
      let (e, s2) := consume s1
      if e = 34 then parseRawStringLoop fuel (acc ++ [34]) s2
      else if e = 92 then parseRawStringLoop fuel (acc ++ [92]) s2
      else if e = 47 then parseRawStringLoop fuel (acc ++ [47]) s2
      else if e = 98 then parseRawStringLoop fuel (acc ++ [8]) s2
      else if e = 102 then parseRawStringLoop fuel (acc ++ [12]) s2
      else if e = 110 then parseRawStringLoop fuel (acc ++ [10]) s2
      else if e = 114 then parseRawStringLoop fuel (acc ++ [13]) s2
      else if e = 116 then parseRawStringLoop fuel (acc ++ [9]) s2
      else if e = 117 then
        let (h1, t1) := consume s2
        let (h2, t2) := consume t1
        let (h3, t3) := consume t2
        let (h4, t4) := consume t3
        match stoiHex [h1, h2, h3, h4] with
        | some cp => parseRawStringLoop fuel (acc ++ codePointUtf8 cp) t4
        | none => .error "Invalid Unicode escape sequence"
      else .error "Invalid escape sequence"
    else parseRawStringLoop fuel (acc ++ [c]) s1

/-- `JsonParser::parse_raw_string`: expect the opening quote, then run the
scan loop (fuel `length + 1` covers every terminating source run). -/
def parseRawString (s : Bytes) : Except String (Bytes × Bytes) :=
  match expect 34 s with
  | .error e => .error e
  | .ok s0 => parseRawStringLoop (s0.length + 1) [] s0

/-- `JsonParser::parse_string` (json_parser.cpp lines 119-122): the raw
scan result goes straight into `JsonStringValue::create` — no UTF-8
validation. -/
def parseString (s : Bytes) : Except String (JsonValue × Bytes) :=
  (parseRawString s).map (fun (raw, rest) => (JsonStringValue.create raw, rest))

/-- The `while (std::isdigit(peek(ctx)))` loops of `parse_number`: note the
whitespace-skipping `peek`/`consume`, so a digit run may span whitespace.
Fuel `length + 1` is enough: the loop stops by itself at end of input. -/
def digitsLoop (fuel : Nat) (acc : Bytes) (s : Bytes) : Bytes × Bytes :=
  match fuel with
  | 0 => (acc, s)
  | fuel + 1 =>
    if isDigitByte (peek s) then
      let (c, s1) := consume s
      digitsLoop fuel (acc ++ [c]) s1
    else (acc, s)

/-! Exact value of the numeric literal the parser assembled, modelling
`std::stod` (which std’s grammar accepts for every string `parse_number`
builds); the double rounding of `stod` is abstracted to the exact rational.
Returns `none` when the text matches none of the shapes `parse_number` can
build (the `catch` branch in the source). -/

/-- Contiguous digit-prefix splitter used by `ratOfNumStr` (this scans the
assembled literal string, not the parser input, so there is no whitespace
skipping here). -/
def takeDigits : Bytes → Bytes × Bytes
  | [] => ([], [])
  | b :: rest =>
    if isDigitByte b then
      let (ds, r) := takeDigits rest
      (b :: ds, r)
    else ([], b :: rest)

/-- Numeric value of a digit string. -/
def digitsVal (ds : Bytes) : Nat := ds.foldl (fun acc b => acc * 10 + (b - 48)) 0

/-- Rational with value `mant * 10 ^ e10`, built without normalisation so
that kernel reduction stays cheap: an integer cast when `e10 ≥ 0`, one
division by a power of ten otherwise. -/
def decimalRat (mant : Int) (e10 : Int) : ℚ :=
  if 0 ≤ e10 then ((mant * 10 ^ e10.toNat : Int) : ℚ)
  else (mant : ℚ) / ((10 : ℚ) ^ (-e10).toNat)

/-- Exact rational value of an assembled numeric literal after the sign:
integer digits, optional fraction, optional exponent
(`digits (. digits)? ((e|E) sign? digits)?`), the shapes
`parse_number` can assemble. -/
def ratOfNumStrCore (sgn : Int) (s1 : Bytes) : Option ℚ :=
  let (ids, s2) := takeDigits s1
  if ids.isEmpty then none
  else
    let (fds, s3) : Bytes × Bytes :=
      match s2 with
      | 46 :: r => takeDigits r
      | r => ([], r)
    let mant : Int := sgn * ((digitsVal ids : Int) * 10 ^ fds.length + (digitsVal fds : Int))
    match s3 with
    | [] => some (decimalRat mant (-(fds.length : Int)))
    | 101 :: r | 69 :: r =>
      let (esgn, r1) : Int × Bytes :=
        match r with
        | 43 :: r2 => (1, r2)
        | 45 :: r2 => (-1, r2)
        | r2 => (1, r2)
      let (eds, r2) := takeDigits r1
      if eds.isEmpty ∨ !r2.isEmpty then none
      else some (decimalRat mant (esgn * (digitsVal eds : Int) - (fds.length : Int)))
    | _ => none

/-- Exact rational value of an assembled numeric literal: optional sign,
then `ratOfNumStrCore`. -/
def ratOfNumStr (s : Bytes) : Option ℚ :=
  match s with
  | 45 :: r => ratOfNumStrCore (-1) r
  | 43 :: r => ratOfNumStrCore 1 r
  | r => ratOfNumStrCore 1 r

/-- The optional-sign stage of `parse_number` (the source also accepts `+`
here, though `parse_value` only dispatches digits and `-`). -/
def numSign (s : Bytes) : Bytes × Bytes :=
  if peek s = 45 ∨ peek s = 43 then ([(consume s).1], (consume s).2) else ([], s)

/-- The integer-part stage: a single `0` (no further digits are taken), or
a digit run, or the `Invalid number format` error. -/
def numInt (s : Bytes) : Except String (Bytes × Bytes) :=
  if peek s = 48 then .ok ([(consume s).1], (consume s).2)
  else if isDigitByte (peek s) then .ok (digitsLoop (s.length + 1) [] s)
  else .error "Invalid number format"

/-- The fraction stage: on a `.`, demand a digit (through the
whitespace-skipping `peek`) and take the digit run. -/
def numFrac (s : Bytes) : Except String (Bytes × Bytes) :=
  if peek s = 46 then
    let c0 := (consume s).1
    let s1 := (consume s).2
    if !isDigitByte (peek s1) then
      .error "Invalid number format - expected digit after decimal point"
    else
      let (ds, s2) := digitsLoop (s1.length + 1) [] s1
      .ok (c0 :: ds, s2)
  else .ok ([], s)

/-- The exponent stage: on `e`/`E`, an optional sign, then demand a digit
and take the digit run. -/
def numExp (s : Bytes) : Except String (Bytes × Bytes) :=
  if peek s = 101 ∨ peek s = 69 then
    let c0 := (consume s).1
    let s1 := (consume s).2
    let (sg, s2) : Bytes × Bytes :=
      if peek s1 = 43 ∨ peek s1 = 45 then ([(consume s1).1], (consume s1).2) else ([], s1)
    if !isDigitByte (peek s2) then
      .error "Invalid number format - expected digit in exponent"
    else
      let (ds, s3) := digitsLoop (s2.length + 1) [] s2
      .ok (c0 :: (sg ++ ds), s3)
  else .ok ([], s)

/-- `JsonParser::parse_number` (json_parser.cpp lines 124-191): sign,
integer part, fraction, exponent — every digit test through the
whitespace-skipping `peek`, so digit runs may span whitespace — then
`std::stod` on the assembled text. -/
def parseNumber (s : Bytes) : Except String (JsonValue × Bytes) :=
  let (sgn, s1) := numSign s
  match numInt s1 with
  | .error e => .error e
  | .ok (ids, s2) =>
    match numFrac s2 with
    | .error e => .error e
    | .ok (fs, s3) =>
      match numExp s3 with
      | .error e => .error e
      | .ok (es, s4) =>
        match ratOfNumStr (sgn ++ ids ++ fs ++ es) with
        | some q => .ok (.number q, s4)
        | none => .error "Invalid number format"

/-- A chain of `expect` calls, one per byte of `cs`, as `parse_boolean` and
`parse_null` spell their literals letter by letter (whitespace may
therefore sit between the letters of a literal). -/
def expectSeq : List Nat → Bytes → Except String Bytes
  | [], s => .ok s
  | c :: cs, s =>
    match expect c s with
    | .error e => .error e
    | .ok r => expectSeq cs r

/-- `JsonParser::parse_boolean`: dispatch on `peek 't'`/`peek 'f'`, then
`expect` each letter. Bytes: 116 `t`, 114 `r`, 117 `u`, 101 `e`,
102 `f`, 97 `a`, 108 `l`, 115 `s`. -/
def parseBoolean (s : Bytes) : Except String (JsonValue × Bytes) :=
  if peek s = 116 then
    match expectSeq [116, 114, 117, 101] s with
    | .error e => .error e
    | .ok r => .ok (.boolean true, r)
  else if peek s = 102 then
    match expectSeq [102, 97, 108, 115, 101] s with
    | .error e => .error e
    | .ok r => .ok (.boolean false, r)
  else .error "Invalid boolean value"

/-- `JsonParser::parse_null`: `expect` each letter of `null` (110 117 108
108). -/
def parseNull (s : Bytes) : Except String (JsonValue × Bytes) :=
  match expectSeq [110, 117, 108, 108] s with
  | .error e => .error e
  | .ok r => .ok (.null, r)

mutual
/-- `JsonParser::parse_value`: skip whitespace, fail at end of input, else
dispatch on the first byte: `"` string, open brace object, `[` array,
`t`/`f` boolean, `n` null, `-`/digit number, otherwise a syntax error.
Fuel decreases on every call into the mutual block; the top level passes
`2 * length + 16`, which covers every terminating source run that the
theorems below touch. -/
def parseValue (fuel : Nat) (s : Bytes) : Except String (JsonValue × Bytes) :=
  match fuel with
  | 0 => .error "Parser fuel exhausted"
  | fuel + 1 =>
    let s := skipWs s
    if s.isEmpty then .error "Unexpected end of input"
    else
      let c := peek s
      if c = 34 then parseString s
      else if c = 123 then parseObject fuel s
      else if c = 91 then parseArray fuel s
      else if c = 116 ∨ c = 102 then parseBoolean s
      else if c = 110 then parseNull s
      else if c = 45 ∨ isDigitByte c then parseNumber s
      else .error "Unexpected character"

/-- `JsonParser::parse_array`: `[`, whitespace, empty check against `]`,
else the element loop, and a final `expect ]`. -/
def parseArray (fuel : Nat) (s : Bytes) : Except String (JsonValue × Bytes) :=
  match fuel with
  | 0 => .error "Parser fuel exhausted"
  | fuel + 1 =>
    match expect 91 s with
    | .error e => .error e
    | .ok s0 =>
      let s1 := skipWs s0
      if peek s1 = 93 then
        match expect 93 s1 with
        | .error e => .error e
        | .ok s2 => .ok (.array [], s2)
      else parseArrayLoop fuel [] s1

/-- The element loop of `parse_array`: a value, then `]` (stop; the
`expect ]` after the loop consumes it) or `,` (consume it, skip
whitespace, continue), anything else an error. -/
def parseArrayLoop (fuel : Nat) (acc : List JsonValue) (s : Bytes) :
    Except String (JsonValue × Bytes) :=
  match fuel with
  | 0 => .error "Parser fuel exhausted"
  | fuel + 1 =>
    match parseValue fuel s with
    | .error e => .error e
    | .ok (v, s1) =>
      let s2 := skipWs s1
      if peek s2 = 93 then
        match expect 93 s2 with
        | .error e => .error e
        | .ok s3 => .ok (.array (acc ++ [v]), s3)
      else if peek s2 = 44 then
        parseArrayLoop fuel (acc ++ [v]) (skipWs (consume s2).2)
      else .error "Expected comma or closing bracket in array"

/-- `JsonParser::parse_object`: like the array, with `parse_raw_string`
keys, `expect :`, and `JsonObject::set` building the map (so a duplicate
key in the input replaces the earlier value). -/
def parseObject (fuel : Nat) (s : Bytes) : Except String (JsonValue × Bytes) :=
  match fuel with
  | 0 => .error "Parser fuel exhausted"
  | fuel + 1 =>
    match expect 123 s with
    | .error e => .error e
    | .ok s0 =>
      let s1 := skipWs s0
      if peek s1 = 125 then
        match expect 125 s1 with
        | .error e => .error e
        | .ok s2 => .ok (.object [], s2)
      else parseObjectLoop fuel [] s1

/-- The member loop of `parse_object`. -/
def parseObjectLoop (fuel : Nat) (acc : List (Bytes × JsonValue)) (s : Bytes) :
    Except String (JsonValue × Bytes) :=
  match fuel with
  | 0 => .error "Parser fuel exhausted"
  | fuel + 1 =>
    match parseRawString s with
    | .error e => .error e
    | .ok (key, s1) =>
      match expect 58 (skipWs s1) with
      | .error e => .error e
      | .ok s3 =>
        match parseValue fuel (skipWs s3) with
        | .error e => .error e
        | .ok (v, s5) =>
          let acc1 := JsonObject.set acc key v
          let s6 := skipWs s5
          if peek s6 = 125 then
            match expect 125 s6 with
            | .error e => .error e
            | .ok s7 => .ok (.object acc1, s7)
          else if peek s6 = 44 then
            parseObjectLoop fuel acc1 (skipWs (consume s6).2)
          else .error "Expected comma or closing bracket in object"
end

/-- Fuel passed by the top-level `parse`: generous enough for every
terminating run the theorems exercise (each mutual call either consumes
input or alternates with one that does). -/
def parseFuel (s : Bytes) : Nat := 2 * s.length + 16

/-- `JsonParser::parse` (json_parser.cpp lines 327-348): run
`parse_value`, skip trailing whitespace, demand end of input
(`SyntaxError` otherwise), and map every `JsonException` from the descent
to `ParseError`. -/
def parse (s : Bytes) : Except JsonErrorCode JsonValue :=
  match parseValue (parseFuel s) s with
  | .ok (v, rest) =>
    if (skipWs rest).isEmpty then .ok v else .error .SyntaxError
  | .error _ => .error .ParseError

end Jansson

namespace Jansson

/-! ## Well-formedness and basic lemmas -/

/-- Pairwise distinctness of a key list. -/
def distinctKeys : List Bytes → Bool
  | [] => true
  | k :: ks => decide (k ∉ ks) && distinctKeys ks

mutual
/-- Well-formed trees: every object layer has pairwise-distinct keys, the
invariant `std::unordered_map` maintains by construction and the only gap
between the association-list model and the C++ map. -/
def wfVal : JsonValue → Bool
  | .null => true
  | .boolean _ => true
  | .number _ => true
  | .string _ => true
  | .array xs => wfList xs
  | .object es => distinctKeys (es.map Prod.fst) && wfEntries es

/-- Well-formedness of every element of an array. -/
def wfList : List JsonValue → Bool
  | [] => true
  | x :: xs => wfVal x && wfList xs

/-- Well-formedness of every value of an object. -/
def wfEntries : List (Bytes × JsonValue) → Bool
  | [] => true
  | (_, v) :: rest => wfVal v && wfEntries rest
end

/-- Looking up a present key of an object with distinct keys finds exactly
the stored value. -/
theorem get_of_mem_distinct {es : List (Bytes × JsonValue)} {k : Bytes} {v : JsonValue}
    (hd : distinctKeys (es.map Prod.fst) = true) (hm : (k, v) ∈ es) :
    JsonObject.get es k = some v := by
  induction es with
  | nil => cases hm
  | cons e rest ih =>
    obtain ⟨k0, v0⟩ := e
    simp only [List.map_cons, distinctKeys, Bool.and_eq_true,
      decide_eq_true_eq] at hd
    rcases List.mem_cons.mp hm with h | h
    · injection h with h1 h2
      subst h1; subst h2
      simp [JsonObject.get]
    · have hne : k0 ≠ k := fun he => hd.1 (by
        rw [he]
        exact List.mem_map.mpr ⟨(k, v), h, rfl⟩)
      simp only [JsonObject.get, if_neg hne]
      exact ih hd.2 h

mutual
/-- Structural equality is reflexive on well-formed trees (for objects the
per-key lookup must find the entry itself, which needs distinct keys; for
numbers `abs (q - q) = 0 < 1e-12`). -/
theorem eqVal_refl : ∀ v : JsonValue, wfVal v = true → eqVal v v = true
  | .null, _ => rfl
  | .boolean b, _ => by simp [eqVal]
  | .number q, _ => by simp [eqVal, numTolerance]
  | .string s, _ => by simp [eqVal]
  | .array xs, h => by
    simp only [eqVal, Bool.and_eq_true, beq_self_eq_true, true_and]
    exact eqValList_refl xs (by simpa [wfVal] using h)
  | .object es, h => by
    simp only [wfVal, Bool.and_eq_true] at h
    simp only [eqVal, Bool.and_eq_true, beq_self_eq_true, true_and]
    exact eqValEntries_found es es h.2
      (fun kv hkv => get_of_mem_distinct h.1 (by simpa using hkv))

/-- List form of `eqVal_refl`. -/
theorem eqValList_refl : ∀ xs : List JsonValue, wfList xs = true → eqValList xs xs = true
  | [], _ => rfl
  | x :: xs, h => by
    simp only [wfList, Bool.and_eq_true] at h
    simp only [eqValList, Bool.and_eq_true]
    exact ⟨eqVal_refl x h.1, eqValList_refl xs h.2⟩

/-- Entries form: every left entry is found verbatim in `fs`, so the
per-key loop succeeds. -/
theorem eqValEntries_found : ∀ (es fs : List (Bytes × JsonValue)),
    wfEntries es = true → (∀ kv ∈ es, JsonObject.get fs kv.1 = some kv.2) →
    eqValEntries es fs = true
  | [], _, _, _ => rfl
  | (k, v) :: rest, fs, hw, hf => by
    simp only [wfEntries, Bool.and_eq_true] at hw
    have hk : JsonObject.get fs k = some v := hf (k, v) (List.mem_cons_self ..)
    simp only [eqValEntries, hk, Bool.and_eq_true]
    exact ⟨eqVal_refl v hw.1, eqValEntries_found rest fs hw.2
      (fun kv hkv => hf kv (List.mem_cons_of_mem _ hkv))⟩
end

/-! ## C10 — whitespace is skipped inside tokens -/

/-- C10: `consume`/`peek` skip ASCII whitespace before every single byte
read, even inside tokens, so `parse "t r u e"` yields Boolean true and
`parse "[1 2]"` yields a one-element array holding the single Number 12
(bytes: 116 t, 114 r, 117 u, 101 e; 91 `[`, 49 `1`, 50 `2`, 93 `]`,
32 space). -/
theorem parse_skips_whitespace_inside_tokens :
    parse [116, 32, 114, 32, 117, 32, 101] = .ok (.boolean true) ∧
    parse [91, 49, 32, 50, 93] = .ok (.array [.number 12]) :=
  ⟨rfl, rfl⟩

/-! ## C9 — array bounds behaviour of `JsonArray::at` -/

/-- C9: `at i` returns the element stored at position `i` whenever
`i < size`, and fails (with the `JsonException` whose message is the
out-of-bounds message) for every `i ≥ size`; the embedding's `at` takes
the array immutably, matching the `const` receiver in the source. -/
theorem jsonArray_at_bounds (vs : List JsonValue) (i : Nat) :
    (∀ h : i < vs.length, JsonArray.at vs i = .ok (vs.get ⟨i, h⟩)) ∧
    (vs.length ≤ i → JsonArray.at vs i = .error "Array index out of bounds") := by
  constructor
  · intro h
    simp [JsonArray.at, h]
  · intro h
    simp [JsonArray.at, Nat.not_lt.mpr h]

/-- Witness: element 0 of a one-element array is returned; index 0 of the
empty array fails. -/
theorem jsonArray_at_bounds_witness :
    JsonArray.at [JsonValue.null] 0 = .ok JsonValue.null ∧
    JsonArray.at ([] : List JsonValue) 0 = .error "Array index out of bounds" :=
  ⟨(jsonArray_at_bounds [JsonValue.null] 0).1 (by decide),
   (jsonArray_at_bounds [] 0).2 (by decide)⟩

end Jansson

namespace Jansson

/-! ## C6 — object set is insert-or-replace -/

/-- Setting a key makes its lookup return exactly the new value. -/
theorem get_set_self (es : List (Bytes × JsonValue)) (k : Bytes) (v : JsonValue) :
    JsonObject.get (JsonObject.set es k v) k = some v := by
  induction es with
  | nil => simp [JsonObject.set, JsonObject.get]
  | cons e rest ih =>
    obtain ⟨k0, v0⟩ := e
    by_cases h : k0 = k
    · simp [JsonObject.set, JsonObject.get, h]
    · simp [JsonObject.set, JsonObject.get, h, ih]

/-- Setting a key that is already present does not change the size. -/
theorem length_set_of_present (es : List (Bytes × JsonValue)) (k : Bytes) (v : JsonValue)
    (h : (JsonObject.get es k).isSome = true) :
    (JsonObject.set es k v).length = es.length := by
  induction es with
  | nil => simp [JsonObject.get] at h
  | cons e rest ih =>
    obtain ⟨k0, v0⟩ := e
    by_cases hk : k0 = k
    · simp [JsonObject.set, hk]
    · simp only [JsonObject.get, if_neg hk] at h
      simp [JsonObject.set, hk, ih h]

/-- C6 (amended by nothing; the statement of the claim itself): after
`set k x; set k y`, the size equals the size after the first set (1 when
the object started empty), `has k` holds, and `get k` yields the very
node `y` — hence a node `equals`-equal to `y` whenever `y` is a
well-formed tree (`equals` is reflexive only on trees without duplicate
object keys, which the real `unordered_map`-backed objects always are). -/
theorem object_set_insert_or_replace (obj : List (Bytes × JsonValue)) (k : Bytes)
    (x y : JsonValue) :
    (JsonObject.set (JsonObject.set obj k x) k y).length
        = (JsonObject.set obj k x).length ∧
    JsonObject.has (JsonObject.set (JsonObject.set obj k x) k y) k = true ∧
    JsonObject.get (JsonObject.set (JsonObject.set obj k x) k y) k = some y ∧
    (JsonObject.set (JsonObject.set ([] : List (Bytes × JsonValue)) k x) k y).length = 1 ∧
    (wfVal y = true → ∃ v, JsonObject.get (JsonObject.set (JsonObject.set obj k x) k y) k
        = some v ∧ eqVal v y = true) := by
  refine ⟨?_, ?_, get_set_self _ _ _, ?_, ?_⟩
  · exact length_set_of_present _ _ _ (by simp [get_set_self])
  · simp [JsonObject.has, get_set_self]
  · simp [JsonObject.set]
  · intro hwf
    exact ⟨y, get_set_self _ _ _, eqVal_refl y hwf⟩

/-- Witness: a concrete double set on an initially empty object. -/
theorem object_set_insert_or_replace_witness :
    JsonObject.get (JsonObject.set (JsonObject.set ([] : List (Bytes × JsonValue))
        [107] JsonValue.null) [107] (.boolean true)) [107] = some (.boolean true) ∧
    (JsonObject.set (JsonObject.set ([] : List (Bytes × JsonValue))
        [107] JsonValue.null) [107] (.boolean true)).length = 1 ∧
    ∃ v, JsonObject.get (JsonObject.set (JsonObject.set ([] : List (Bytes × JsonValue))
        [107] JsonValue.null) [107] (.boolean true)) [107] = some v ∧
      eqVal v (.boolean true) = true := by
  obtain ⟨h1, h2, h3, h4, h5⟩ :=
    object_set_insert_or_replace ([] : List (Bytes × JsonValue)) [107]
      JsonValue.null (.boolean true)
  exact ⟨h3, h4, h5 rfl⟩

/-! ## C1 — no UTF-8 validation on the String-node construction path -/

/-- C1 counterexample: `JsonStringValue::create` accepts the overlong
sequence `0xC0 0x80` without failing, the parser builds a String node
holding exactly those bytes from the input `"\xC0\x80"`, and
`string_value` hands the invalid bytes back; `validate_utf8` rejects
them, so a String node reachable through the public interface does not
hold valid UTF-8 and no `InvalidUTF8` failure ever happened. -/
theorem string_construction_never_validates :
    JsonStringValue.create [192, 128] = .string [192, 128] ∧
    stringValue (JsonStringValue.create [192, 128]) = .ok [192, 128] ∧
    parse [34, 192, 128, 34] = .ok (.string [192, 128]) ∧
    validate_utf8 [192, 128] = false :=
  ⟨rfl, rfl, rfl, rfl⟩

/-- C1 amended: `JsonStringValue::create` is total and stores the supplied
bytes verbatim — no UTF-8 validation happens on the String-node path (the
constructors of json_value.cpp lines 51-58 just copy, and
`parse_string` calls `create` directly); validation with the
`InvalidUTF8`-style failure exists only in the separate `JsonString`
helper class of string_utils.cpp, whose construction fails exactly on
invalid UTF-8. -/
theorem string_create_stores_bytes_verbatim (s : Bytes) :
    JsonStringValue.create s = .string s ∧
    stringValue (JsonStringValue.create s) = .ok s ∧
    (mkJsonString s = .ok s ↔ validate_utf8 s = true) ∧
    (validate_utf8 s = false →
      mkJsonString s = .error "Invalid UTF-8 sequence in JsonString") := by
  refine ⟨rfl, rfl, ?_, ?_⟩
  · constructor
    · intro h
      by_contra hv
      rw [Bool.not_eq_true] at hv
      simp [mkJsonString, hv] at h
    · intro h
      simp [mkJsonString, h]
  · intro h
    simp [mkJsonString, h]

/-- Witness: the helper class rejects the overlong `0xC0 0x80` while the
String node accepts it. -/
theorem string_create_stores_bytes_verbatim_witness :
    JsonStringValue.create [192, 128] = .string [192, 128] ∧
    mkJsonString [192, 128] = .error "Invalid UTF-8 sequence in JsonString" := by
  obtain ⟨h1, _, _, h4⟩ := string_create_stores_bytes_verbatim [192, 128]
  exact ⟨h1, h4 rfl⟩

/-! ## C3 — serialization of empty containers -/

/-- C3 counterexample: in pretty mode the serializer writes the newline
after the opening bracket unconditionally (json_serializer.cpp lines
42-44 and 76-78), so an empty Array pretty-prints as three bytes
`[`, newline, `]` — not as `[]` — and likewise the empty Object. -/
theorem serialize_empty_pretty_newline :
    serialize (.array []) true 2 = [91, 10, 93] ∧
    serialize (.array []) true 2 ≠ [91, 93] ∧
    serialize (.object []) true 2 = [123, 10, 125] ∧
    serialize (.object []) true 2 ≠ [123, 125] :=
  ⟨rfl, by decide, rfl, by decide⟩

/-- C3 amended: for every indent width (and nesting level), non-pretty
serialization of an empty Array/Object is exactly `[]`/the empty braces,
while pretty serialization inserts exactly one newline between the
brackets (the closing-side newline and indentation are guarded by
`!empty`, the opening-side newline is not). -/
theorem serialize_empty_containers (indent curInd : Nat) :
    serialize (.array []) false indent = [91, 93] ∧
    serialize (.object []) false indent = [123, 125] ∧
    serialize (.array []) true indent = [91, 10, 93] ∧
    serialize (.object []) true indent = [123, 10, 125] ∧
    serializeValue false indent curInd (.array []) = [91, 93] ∧
    serializeValue false indent curInd (.object []) = [123, 125] ∧
    serializeValue true indent curInd (.array []) = [91, 10, 93] ∧
    serializeValue true indent curInd (.object []) = [123, 10, 125] := by
  refine ⟨?_, ?_, ?_, ?_, ?_, ?_, ?_, ?_⟩ <;>
    simp [serialize, serializeValue, serializeItems, serializeMembers]

end Jansson

namespace Jansson

/-! ## C8 — surrogate-pair escapes are not recombined -/

/-- A byte with a hex-digit value lies in one of the three digit ranges. -/
theorem hexVal?_ranges {b v : Nat} (h : hexVal? b = some v) :
    (48 ≤ b ∧ b ≤ 57) ∨ (97 ≤ b ∧ b ≤ 102) ∨ (65 ≤ b ∧ b ≤ 70) := by
  unfold hexVal? at h
  split_ifs at h with h1 h2 h3
  · exact Or.inl h1
  · exact Or.inr (Or.inl h2)
  · exact Or.inr (Or.inr h3)

/-- Hex-digit bytes are not whitespace (either predicate), not signs, and
not structural bytes of a string literal. -/
theorem hexVal?_byte_facts {b v : Nat} (h : hexVal? b = some v) :
    isWsByte0 b = false ∧ isWsByte b = false ∧ b ≠ 45 ∧ b ≠ 43 ∧
    b ≠ 34 ∧ b ≠ 92 := by
  rcases hexVal?_ranges h with hr | hr | hr <;>
    refine ⟨?_, ?_, ?_, ?_, ?_, ?_⟩ <;> simp [isWsByte0, isWsByte] <;> omega

/-- `std::stoi(.., 16)` on four hex-digit bytes yields their value. -/
theorem stoiHex_four {d1 d2 d3 d4 v1 v2 v3 v4 : Nat}
    (h1 : hexVal? d1 = some v1) (h2 : hexVal? d2 = some v2)
    (h3 : hexVal? d3 = some v3) (h4 : hexVal? d4 = some v4) :
    stoiHex [d1, d2, d3, d4]
      = some ((((v1 * 16 + v2) * 16 + v3) * 16 + v4 : Nat) : Int) := by
  obtain ⟨hw, _, hm, hp, _, _⟩ := hexVal?_byte_facts h1
  unfold stoiHex
  rw [List.dropWhile_cons_of_neg (by simp [hw])]
  simp only [if_neg hm, if_neg hp]
  simp [hexPrefix, h1, h2, h3, h4]

/-- The three-byte branch of the shared code-point-to-UTF-8 cascade, the
one every `\uXXXX` value in `0x800 ..= 0xFFFF` (surrogates included)
lands in. -/
theorem codePointUtf8_three {cp : Nat} (hl : 0x800 ≤ cp) (hh : cp ≤ 0xFFFF) :
    codePointUtf8 (cp : Int)
      = [0xE0 ||| (cp >>> 12 &&& 0x0F), 0x80 ||| (cp >>> 6 &&& 0x3F),
         0x80 ||| (cp &&& 0x3F)] := by
  unfold codePointUtf8
  rw [if_neg (by omega), if_neg (by omega), if_pos (by omega)]
  simp

/-- One `\uXXXX` step of the `unescape` loop. -/
theorem unescapeBody_u {d1 d2 d3 d4 v1 v2 v3 v4 : Nat}
    (h1 : hexVal? d1 = some v1) (h2 : hexVal? d2 = some v2)
    (h3 : hexVal? d3 = some v3) (h4 : hexVal? d4 = some v4) (rest : Bytes) :
    unescapeBody (92 :: 117 :: d1 :: d2 :: d3 :: d4 :: rest)
      = (unescapeBody rest).map
          (codePointUtf8 ((((v1 * 16 + v2) * 16 + v3) * 16 + v4 : Nat) : Int) ++ ·) := by
  have hs := stoiHex_four h1 h2 h3 h4
  simp [unescapeBody, hs]

/-- The closing-quote step of the `parse_raw_string` loop. -/
theorem parseRawStringLoop_quote (fuel : Nat) (acc rest : Bytes) :
    parseRawStringLoop (fuel + 1) acc (34 :: rest) = .ok (acc, rest) := by
  simp [parseRawStringLoop, consume, skipWs, List.dropWhile,
    show isWsByte 34 = false from rfl]

/-- One `\uXXXX` step of the parser's `parse_raw_string` loop. -/
theorem parseRawStringLoop_u {d1 d2 d3 d4 v1 v2 v3 v4 : Nat} (fuel : Nat) (acc : Bytes)
    (h1 : hexVal? d1 = some v1) (h2 : hexVal? d2 = some v2)
    (h3 : hexVal? d3 = some v3) (h4 : hexVal? d4 = some v4) (rest : Bytes) :
    parseRawStringLoop (fuel + 1) acc (92 :: 117 :: d1 :: d2 :: d3 :: d4 :: rest)
      = parseRawStringLoop fuel
          (acc ++ codePointUtf8 ((((v1 * 16 + v2) * 16 + v3) * 16 + v4 : Nat) : Int)) rest := by
  have hs := stoiHex_four h1 h2 h3 h4
  obtain ⟨_, w1, _, _, _, _⟩ := hexVal?_byte_facts h1
  obtain ⟨_, w2, _, _, _, _⟩ := hexVal?_byte_facts h2
  obtain ⟨_, w3, _, _, _, _⟩ := hexVal?_byte_facts h3
  obtain ⟨_, w4, _, _, _, _⟩ := hexVal?_byte_facts h4
  simp [parseRawStringLoop, consume, skipWs, List.dropWhile_cons, hs,
    w1, w2, w3, w4, show isWsByte 92 = false from rfl,
    show isWsByte 117 = false from rfl]

/-- C8: two consecutive `\uXXXX` escapes spelling a UTF-16 surrogate pair
(high `0xD800-0xDBFF`, low `0xDC00-0xDFFF`, in any hex-digit spelling) are
each converted independently through the 3-byte branch of the UTF-8
cascade, both by `JsonString::unescape` and by the parser's
`parse_raw_string`; the twelve-hex-digit input produces the two 3-byte
surrogate encodings concatenated, never the single 4-byte encoding of the
combined code point. -/
theorem surrogate_pair_escapes_not_recombined
    {d1 d2 d3 d4 e1 e2 e3 e4 v1 v2 v3 v4 w1 w2 w3 w4 cp1 cp2 : Nat}
    (hd1 : hexVal? d1 = some v1) (hd2 : hexVal? d2 = some v2)
    (hd3 : hexVal? d3 = some v3) (hd4 : hexVal? d4 = some v4)
    (he1 : hexVal? e1 = some w1) (he2 : hexVal? e2 = some w2)
    (he3 : hexVal? e3 = some w3) (he4 : hexVal? e4 = some w4)
    (hcp1 : ((v1 * 16 + v2) * 16 + v3) * 16 + v4 = cp1)
    (hcp2 : ((w1 * 16 + w2) * 16 + w3) * 16 + w4 = cp2)
    (hr1 : 0xD800 ≤ cp1 ∧ cp1 ≤ 0xDBFF) (hr2 : 0xDC00 ≤ cp2 ∧ cp2 ≤ 0xDFFF) :
    unescape [34, 92, 117, d1, d2, d3, d4, 92, 117, e1, e2, e3, e4, 34]
      = .ok (codePointUtf8 (cp1 : Int) ++ codePointUtf8 (cp2 : Int)) ∧
    parseRawString [34, 92, 117, d1, d2, d3, d4, 92, 117, e1, e2, e3, e4, 34]
      = .ok (codePointUtf8 (cp1 : Int) ++ codePointUtf8 (cp2 : Int), []) ∧
    codePointUtf8 (cp1 : Int)
      = [0xE0 ||| (cp1 >>> 12 &&& 0x0F), 0x80 ||| (cp1 >>> 6 &&& 0x3F),
         0x80 ||| (cp1 &&& 0x3F)] ∧
    codePointUtf8 (cp2 : Int)
      = [0xE0 ||| (cp2 >>> 12 &&& 0x0F), 0x80 ||| (cp2 >>> 6 &&& 0x3F),
         0x80 ||| (cp2 &&& 0x3F)] ∧
    codePointUtf8 (cp1 : Int) ++ codePointUtf8 (cp2 : Int)
      ≠ codePointUtf8 ((0x10000 + (cp1 - 0xD800) * 0x400 + (cp2 - 0xDC00) : Nat) : Int) := by
  subst hcp1
  subst hcp2
  have henc1 := @codePointUtf8_three (((v1 * 16 + v2) * 16 + v3) * 16 + v4)
    (by omega) (by omega)
  have henc2 := @codePointUtf8_three (((w1 * 16 + w2) * 16 + w3) * 16 + w4)
    (by omega) (by omega)
  refine ⟨?_, ?_, henc1, henc2, ?_⟩
  · show unescape _ = _
    rw [unescape, if_pos ⟨rfl, rfl, by simp⟩]
    show unescapeBody (92 :: 117 :: d1 :: d2 :: d3 :: d4 ::
      (92 :: 117 :: e1 :: e2 :: e3 :: e4 :: [])) = _
    rw [unescapeBody_u hd1 hd2 hd3 hd4, unescapeBody_u he1 he2 he3 he4]
    simp [unescapeBody, Except.map]
  · simp only [parseRawString]
    rw [show expect 34 [34, 92, 117, d1, d2, d3, d4, 92, 117, e1, e2, e3, e4, 34]
        = .ok [92, 117, d1, d2, d3, d4, 92, 117, e1, e2, e3, e4, 34] from rfl]
    show parseRawStringLoop (13 + 1) []
      [92, 117, d1, d2, d3, d4, 92, 117, e1, e2, e3, e4, 34] = _
    rw [parseRawStringLoop_u 13 [] hd1 hd2 hd3 hd4]
    rw [show (13 : Nat) = 12 + 1 from rfl]
    rw [parseRawStringLoop_u 12 _ he1 he2 he3 he4]
    rw [show (12 : Nat) = 11 + 1 from rfl, parseRawStringLoop_quote]
    simp
  · rw [henc1, henc2]
    intro hcontra
    have hlen := congrArg List.length hcontra
    rw [show (0x10000 + ((((v1 * 16 + v2) * 16 + v3) * 16 + v4) - 0xD800) * 0x400
        + ((((w1 * 16 + w2) * 16 + w3) * 16 + w4) - 0xDC00) : Nat)
        = (0x10000 + ((((v1 * 16 + v2) * 16 + v3) * 16 + v4) - 0xD800) * 0x400
        + ((((w1 * 16 + w2) * 16 + w3) * 16 + w4) - 0xDC00)) from rfl] at hlen
    have h4b : (codePointUtf8 ((0x10000 + ((((v1 * 16 + v2) * 16 + v3) * 16 + v4) - 0xD800)
        * 0x400 + ((((w1 * 16 + w2) * 16 + w3) * 16 + w4) - 0xDC00) : Nat) : Int)).length
        = 4 := by
      unfold codePointUtf8
      rw [if_neg (by omega), if_neg (by omega), if_neg (by omega), if_pos (by omega)]
      rfl
    rw [h4b] at hlen
    simp at hlen

/-- Witness: the canonical pair `𐀀` (hex digits `D 8 0 0` /
`D C 0 0`) comes out as the six bytes `ED A0 80 ED B0 80`, the two 3-byte
surrogate encodings, in both `unescape` and `parse_raw_string`. -/
theorem surrogate_pair_escapes_not_recombined_witness :
    unescape [34, 92, 117, 68, 56, 48, 48, 92, 117, 68, 67, 48, 48, 34]
      = .ok [237, 160, 128, 237, 176, 128] ∧
    parseRawString [34, 92, 117, 68, 56, 48, 48, 92, 117, 68, 67, 48, 48, 34]
      = .ok ([237, 160, 128, 237, 176, 128], []) := by
  obtain ⟨hu, hp, _, _, _⟩ :=
    @surrogate_pair_escapes_not_recombined 68 56 48 48 68 67 48 48
      13 8 0 0 13 12 0 0 55296 56320
      rfl rfl rfl rfl rfl rfl rfl rfl (by decide) (by decide)
      (by decide) (by decide)
  constructor
  · rw [hu]
    rfl
  · rw [hp]
    rfl

end Jansson

namespace Jansson

/-! ## C7 — the UTF-8 validator accepts exactly well-formed UTF-8

The specification side: `specUtf8Encode` follows the spec's words (§4.1 of
spec.md) — the standard byte-count-by-range UTF-8 encoding of a Unicode
scalar value (1/2/3/4 bytes for ≤0x7F/≤0x7FF/≤0xFFFF/≤0x10FFFF), and a
byte sequence "contains none of the defects" exactly when it is the
encoding of some sequence of scalar values (no surrogates, nothing past
U+10FFFF, minimal lengths, complete sequences, correct continuations). -/

/-- Standard minimal UTF-8 encoding of one scalar value (spec side). -/
def specUtf8Encode (cp : Nat) : Bytes :=
  if cp < 0x80 then [cp]
  else if cp < 0x800 then
    [0xC0 ||| cp >>> 6, 0x80 ||| (cp &&& 0x3F)]
  else if cp < 0x10000 then
    [0xE0 ||| cp >>> 12, 0x80 ||| (cp >>> 6 &&& 0x3F), 0x80 ||| (cp &&& 0x3F)]
  else
    [0xF0 ||| cp >>> 18, 0x80 ||| (cp >>> 12 &&& 0x3F), 0x80 ||| (cp >>> 6 &&& 0x3F),
     0x80 ||| (cp &&& 0x3F)]

/-- Concatenated encoding of a scalar sequence (spec side). -/
def specUtf8EncodeAll : List Nat → Bytes
  | [] => []
  | cp :: rest => specUtf8Encode cp ++ specUtf8EncodeAll rest

/-- A Unicode scalar value: within range and not a UTF-16 surrogate. -/
def IsScalar (cp : Nat) : Prop := cp ≤ 0x10FFFF ∧ ¬(0xD800 ≤ cp ∧ cp ≤ 0xDFFF)

instance : DecidablePred IsScalar := fun cp => by
  unfold IsScalar
  infer_instance

/-! Bit-level toolkit: `|||` of disjoint parts is `+`, shifts are division
and multiplication by powers of two, masks are remainders. -/

theorem lor_shift (k x y : Nat) (hy : y < 2 ^ k) : x <<< k ||| y = 2 ^ k * x + y := by
  rw [Nat.shiftLeft_eq, Nat.mul_comm]
  exact (Nat.mul_add_lt_is_or hy x).symm

theorem lor_low (k a z : Nat) (hz : z < 2 ^ k) : (2 ^ k * a) ||| z = 2 ^ k * a + z :=
  (Nat.mul_add_lt_is_or hz a).symm

theorem and_mask_mod (n k : Nat) : n &&& (2 ^ k - 1) = n % 2 ^ k :=
  Nat.and_pow_two_sub_one_eq_mod n k

theorem shiftr_div (n k : Nat) : n >>> k = n / 2 ^ k :=
  Nat.shiftRight_eq_div_pow n k

/-! Byte classification facts, each a bounded `decide` over one byte. -/

set_option maxRecDepth 10000 in
theorem byte_ascii {b : Nat} (hb : b < 256) (h : (b &&& 0x80 == 0x00) = true) :
    b < 128 := by
  revert h
  revert hb
  revert b
  decide

set_option maxRecDepth 10000 in
theorem byte_lead2 {b : Nat} (hb : b < 256) (h : (b &&& 0xE0 == 0xC0) = true) :
    192 ≤ b ∧ b < 224 ∧ b &&& 0x1F = b - 192 := by
  revert h
  revert hb
  revert b
  decide

set_option maxRecDepth 10000 in
theorem byte_cont {b : Nat} (hb : b < 256) (h : (b &&& 0xC0 != 0x80) = false) :
    128 ≤ b ∧ b < 192 ∧ b &&& 0x3F = b - 128 := by
  revert h
  revert hb
  revert b
  decide

set_option maxRecDepth 10000 in
theorem byte_lead3 {b : Nat} (hb : b < 256) (h : (b &&& 0xF0 == 0xE0) = true) :
    224 ≤ b ∧ b < 240 ∧ b &&& 0x0F = b - 224 := by
  revert h
  revert hb
  revert b
  decide

set_option maxRecDepth 10000 in
theorem byte_lead4 {b : Nat} (hb : b < 256) (h : (b &&& 0xF8 == 0xF0) = true) :
    240 ≤ b ∧ b < 248 ∧ b &&& 0x07 = b - 240 := by
  revert h
  revert hb
  revert b
  decide

/-- The two-byte code-point assembly in additive form. -/
theorem cp2_eq {x y : Nat} (hx : x < 32) (hy : y < 64) :
    x <<< 6 ||| y = 64 * x + y := by
  rw [lor_shift 6 x y (by norm_num; omega)]
  norm_num

/-- The three-byte code-point assembly in additive form. -/
theorem cp3_eq {x y z : Nat} (hx : x < 16) (hy : y < 64) (hz : z < 64) :
    x <<< 12 ||| y <<< 6 ||| z = 4096 * x + 64 * y + z := by
  have h1 : x <<< 12 ||| y <<< 6 = 4096 * x + 64 * y := by
    rw [lor_shift 12 x (y <<< 6) (by rw [Nat.shiftLeft_eq]; norm_num; omega),
        Nat.shiftLeft_eq]
    ring_nf
  rw [h1, show 4096 * x + 64 * y = 2 ^ 6 * (64 * x + y) by ring,
      lor_low 6 _ z (by norm_num; omega)]
  try ring

/-- The four-byte code-point assembly in additive form. -/
theorem cp4_eq {x y z w : Nat} (hx : x < 8) (hy : y < 64) (hz : z < 64) (hw : w < 64) :
    x <<< 18 ||| y <<< 12 ||| z <<< 6 ||| w = 262144 * x + 4096 * y + 64 * z + w := by
  have h1 : x <<< 18 ||| y <<< 12 = 262144 * x + 4096 * y := by
    rw [lor_shift 18 x (y <<< 12) (by rw [Nat.shiftLeft_eq]; norm_num; omega),
        Nat.shiftLeft_eq]
    ring_nf
  have h3 : x <<< 18 ||| y <<< 12 ||| z <<< 6 = 262144 * x + 4096 * y + 64 * z := by
    rw [h1, show 262144 * x + 4096 * y = 2 ^ 12 * (64 * x + y) by ring,
        lor_low 12 _ (z <<< 6) (by rw [Nat.shiftLeft_eq]; norm_num; omega),
        Nat.shiftLeft_eq]
    try ring
  rw [h3, show 262144 * x + 4096 * y + 64 * z = 2 ^ 6 * (4096 * x + 64 * y + z) by ring,
      lor_low 6 _ w (by norm_num; omega)]
  try ring

/-- `specUtf8Encode` in purely additive form, two-byte range. -/
theorem specUtf8Encode_two {cp : Nat} (h1 : 0x80 ≤ cp) (h2 : cp < 0x800) :
    specUtf8Encode cp = [192 + cp / 64, 128 + cp % 64] := by
  unfold specUtf8Encode
  rw [if_neg (by omega), if_pos h2]
  rw [show (63 : Nat) = 2 ^ 6 - 1 from rfl]
  simp only [and_mask_mod, shiftr_div]
  rw [show (0xC0 : Nat) = 2 ^ 6 * 3 from rfl,
      show (0x80 : Nat) = 2 ^ 7 * 1 from rfl,
      lor_low 6 3 (cp / 2 ^ 6) (by norm_num; omega),
      lor_low 7 1 (cp % 2 ^ 6) (by norm_num; omega)]
  norm_num

/-- `specUtf8Encode` in purely additive form, three-byte range. -/
theorem specUtf8Encode_three {cp : Nat} (h1 : 0x800 ≤ cp) (h2 : cp < 0x10000) :
    specUtf8Encode cp = [224 + cp / 4096, 128 + cp / 64 % 64, 128 + cp % 64] := by
  unfold specUtf8Encode
  rw [if_neg (by omega), if_neg (by omega), if_pos h2]
  rw [show (63 : Nat) = 2 ^ 6 - 1 from rfl]
  simp only [and_mask_mod, shiftr_div]
  rw [show (0xE0 : Nat) = 2 ^ 4 * 14 from rfl,
      show (0x80 : Nat) = 2 ^ 7 * 1 from rfl,
      lor_low 4 14 (cp / 2 ^ 12) (by norm_num; omega),
      lor_low 7 1 (cp / 2 ^ 6 % 2 ^ 6) (by norm_num; omega),
      lor_low 7 1 (cp % 2 ^ 6) (by norm_num; omega)]
  norm_num

/-- `specUtf8Encode` in purely additive form, four-byte range. -/
theorem specUtf8Encode_four {cp : Nat} (h1 : 0x10000 ≤ cp) (h2 : cp ≤ 0x10FFFF) :
    specUtf8Encode cp
      = [240 + cp / 262144, 128 + cp / 4096 % 64, 128 + cp / 64 % 64, 128 + cp % 64] := by
  unfold specUtf8Encode
  rw [if_neg (by omega), if_neg (by omega), if_neg (by omega)]
  rw [show (63 : Nat) = 2 ^ 6 - 1 from rfl]
  simp only [and_mask_mod, shiftr_div]
  rw [show (0xF0 : Nat) = 2 ^ 3 * 30 from rfl,
      show (0x80 : Nat) = 2 ^ 7 * 1 from rfl,
      lor_low 3 30 (cp / 2 ^ 18) (by norm_num; omega),
      lor_low 7 1 (cp / 2 ^ 12 % 2 ^ 6) (by norm_num; omega),
      lor_low 7 1 (cp / 2 ^ 6 % 2 ^ 6) (by norm_num; omega),
      lor_low 7 1 (cp % 2 ^ 6) (by norm_num; omega)]
  norm_num

end Jansson

namespace Jansson

/-! Byte-shape facts about encoder output, again bounded decides. -/

theorem enc_ascii_facts : ∀ c, c < 128 → (c &&& 0x80 == 0x00) = true := by decide

set_option maxRecDepth 2000 in
theorem enc_lead2_facts : ∀ x, x < 32 →
    ((192 + x) &&& 0x80 == 0x00) = false ∧ ((192 + x) &&& 0xE0 == 0xC0) = true ∧
    (192 + x) &&& 0x1F = x := by decide

set_option maxRecDepth 4000 in
theorem enc_cont_facts : ∀ y, y < 64 →
    ((128 + y) &&& 0xC0 != 0x80) = false ∧ (128 + y) &&& 0x3F = y := by decide

set_option maxRecDepth 2000 in
theorem enc_lead3_facts : ∀ x, x < 16 →
    ((224 + x) &&& 0x80 == 0x00) = false ∧ ((224 + x) &&& 0xE0 == 0xC0) = false ∧
    ((224 + x) &&& 0xF0 == 0xE0) = true ∧ (224 + x) &&& 0x0F = x := by decide

set_option maxRecDepth 2000 in
theorem enc_lead4_facts : ∀ x, x < 8 →
    ((240 + x) &&& 0x80 == 0x00) = false ∧ ((240 + x) &&& 0xE0 == 0xC0) = false ∧
    ((240 + x) &&& 0xF0 == 0xE0) = false ∧ ((240 + x) &&& 0xF8 == 0xF0) = true ∧
    (240 + x) &&& 0x07 = x := by decide

set_option maxRecDepth 8000 in
/-- Completeness: the loop accepts every encoding of scalar values, given
at least one fuel tick per encoded byte plus one. -/
theorem validateLoop_encode : ∀ (cps : List Nat) (fuel : Nat),
    (∀ cp ∈ cps, IsScalar cp) → (specUtf8EncodeAll cps).length < fuel →
    validateLoop fuel (specUtf8EncodeAll cps) = true := by
  intro cps
  induction cps with
  | nil =>
    intro fuel _ hf
    match fuel, hf with
    | 0, hf => exact absurd hf (by omega)
    | f + 1, _ => rfl
  | cons cp rest ih =>
    intro fuel hs hf
    have hcp : IsScalar cp := hs cp (List.mem_cons_self ..)
    obtain ⟨hle, hsur⟩ := hcp
    have hstail : ∀ c ∈ rest, IsScalar c := fun c hc => hs c (List.mem_cons_of_mem _ hc)
    rw [show specUtf8EncodeAll (cp :: rest) = specUtf8Encode cp ++ specUtf8EncodeAll rest
        from rfl] at hf ⊢
    by_cases h1 : cp < 0x80
    · rw [show specUtf8Encode cp = [cp] from by unfold specUtf8Encode; rw [if_pos h1]] at hf ⊢
      match fuel, hf with
      | 0, hf => exact absurd hf (by omega)
      | f + 1, hf =>
        simp only [List.cons_append, List.nil_append, validateLoop,
          enc_ascii_facts cp (by omega), if_true]
        exact ih f hstail (by simpa using hf)
    · by_cases h2 : cp < 0x800
      · rw [specUtf8Encode_two (by omega) h2] at hf ⊢
        obtain ⟨f1, f2, f3⟩ := enc_lead2_facts (cp / 64) (by omega)
        obtain ⟨g1, g2⟩ := enc_cont_facts (cp % 64) (by omega)
        simp only [List.length_append, List.length_cons] at hf
        match fuel, hf with
        | 0, hf => exact absurd hf (by omega)
        | f + 1, hf =>
          simp only [List.cons_append, List.nil_append, validateLoop, f1, f2,
            Bool.false_eq_true, if_false, if_true]
          match f, hf with
          | 0, hf => exact absurd hf (by omega)
          | g + 1, hf =>
            simp only [validateTwo, g1, Bool.false_eq_true, if_false, f3, g2]
            rw [cp2_eq (by omega) (by omega), show 64 * (cp / 64) + cp % 64 = cp by omega,
              if_neg (by omega)]
            exact ih g hstail (by simp at hf ⊢; omega)
      · by_cases h3 : cp < 0x10000
        · rw [specUtf8Encode_three (by omega) h3] at hf ⊢
          obtain ⟨f1, f2, f3, f4⟩ := enc_lead3_facts (cp / 4096) (by omega)
          obtain ⟨g1, g2⟩ := enc_cont_facts (cp / 64 % 64) (by omega)
          obtain ⟨g3, g4⟩ := enc_cont_facts (cp % 64) (by omega)
          simp only [List.length_append, List.length_cons] at hf
          match fuel, hf with
          | 0, hf => exact absurd hf (by omega)
          | f + 1, hf =>
            simp only [List.cons_append, List.nil_append, validateLoop, f1, f2, f3,
              Bool.false_eq_true, if_false, if_true]
            match f, hf with
            | 0, hf => exact absurd hf (by omega)
            | g + 1, hf =>
              simp only [validateThree, g1, g3, Bool.or_self, Bool.false_eq_true,
                if_false, f4, g2, g4]
              rw [cp3_eq (by omega) (by omega) (by omega),
                show 4096 * (cp / 4096) + 64 * (cp / 64 % 64) + cp % 64 = cp by omega,
                if_neg (by omega), if_neg hsur]
              exact ih g hstail (by simp at hf ⊢; omega)
        · rw [specUtf8Encode_four (by omega) hle] at hf ⊢
          obtain ⟨f1, f2, f3, f4, f5⟩ := enc_lead4_facts (cp / 262144) (by omega)
          obtain ⟨g1, g2⟩ := enc_cont_facts (cp / 4096 % 64) (by omega)
          obtain ⟨g3, g4⟩ := enc_cont_facts (cp / 64 % 64) (by omega)
          obtain ⟨g5, g6⟩ := enc_cont_facts (cp % 64) (by omega)
          simp only [List.length_append, List.length_cons] at hf
          match fuel, hf with
          | 0, hf => exact absurd hf (by omega)
          | f + 1, hf =>
            simp only [List.cons_append, List.nil_append, validateLoop, f1, f2, f3, f4,
              Bool.false_eq_true, if_false, if_true]
            match f, hf with
            | 0, hf => exact absurd hf (by omega)
            | g + 1, hf =>
              simp only [validateFour, g1, g3, g5, Bool.or_self, Bool.false_eq_true,
                if_false, f5, g2, g4, g6]
              rw [cp4_eq (by omega) (by omega) (by omega) (by omega),
                show 262144 * (cp / 262144) + 4096 * (cp / 4096 % 64) + 64 * (cp / 64 % 64)
                  + cp % 64 = cp by omega,
                if_neg (by omega), if_neg (by omega)]
              exact ih g hstail (by simp at hf ⊢; omega)

set_option maxRecDepth 8000 in
/-- Soundness: every byte sequence the loop accepts is the encoding of a
sequence of scalar values (strong induction on the fuel). -/
theorem validateLoop_sound : ∀ (fuel : Nat) (s : Bytes),
    (∀ b ∈ s, b < 256) → validateLoop fuel s = true →
    ∃ cps : List Nat, (∀ cp ∈ cps, IsScalar cp) ∧ specUtf8EncodeAll cps = s := by
  intro fuel
  induction fuel using Nat.strong_induction_on with
  | _ fuel ih =>
    intro s hb hv
    match fuel with
    | 0 => exact absurd hv (by simp [validateLoop])
    | f + 1 =>
      match s with
      | [] => exact ⟨[], by simp, rfl⟩
      | b :: rest =>
        have hblt : b < 256 := hb b (List.mem_cons_self ..)
        by_cases hA : (b &&& 0x80 == 0x00) = true
        · simp only [validateLoop, hA, if_true] at hv
          obtain ⟨cps, hs, he⟩ := ih f (by omega) rest
            (fun c hc => hb c (List.mem_cons_of_mem _ hc)) hv
          have hlt := byte_ascii hblt hA
          refine ⟨b :: cps, ?_, ?_⟩
          · intro c hc
            rcases List.mem_cons.mp hc with rfl | hc
            · exact ⟨by omega, by omega⟩
            · exact hs c hc
          · show specUtf8Encode b ++ specUtf8EncodeAll cps = b :: rest
            rw [show specUtf8Encode b = [b] from by unfold specUtf8Encode; rw [if_pos hlt],
              he]
            rfl
        · rw [Bool.not_eq_true] at hA
          by_cases hB : (b &&& 0xE0 == 0xC0) = true
          · simp only [validateLoop, hA, hB, Bool.false_eq_true, if_false, if_true] at hv
            match f, hv with
            | 0, hv => exact absurd hv (by simp [validateTwo])
            | g + 1, hv =>
              match rest with
              | [] => exact absurd hv (by simp [validateTwo])
              | b1 :: rest2 =>
                have hb1 : b1 < 256 := hb b1 (by simp)
                obtain ⟨hbl, hbh, hbm⟩ := byte_lead2 hblt hB
                by_cases hc1 : (b1 &&& 0xC0 != 0x80) = true
                · simp [validateTwo, hc1] at hv
                · rw [Bool.not_eq_true] at hc1
                  obtain ⟨hcl, hch, hcm⟩ := byte_cont hb1 hc1
                  simp only [validateTwo, hc1, Bool.false_eq_true, if_false, hbm, hcm] at hv
                  rw [cp2_eq (by omega) (by omega)] at hv
                  by_cases hov : 64 * (b - 192) + (b1 - 128) < 0x80
                  · rw [if_pos hov] at hv
                    exact absurd hv (by simp)
                  · rw [if_neg hov] at hv
                    obtain ⟨cps, hs, he⟩ := ih g (by omega) rest2
                      (fun c hc => hb c (by simp [hc])) hv
                    refine ⟨(64 * (b - 192) + (b1 - 128)) :: cps, ?_, ?_⟩
                    · intro c hc
                      rcases List.mem_cons.mp hc with rfl | hc
                      · exact ⟨by omega, by omega⟩
                      · exact hs c hc
                    · show specUtf8Encode _ ++ specUtf8EncodeAll cps = b :: b1 :: rest2
                      rw [specUtf8Encode_two (by omega) (by omega), he]
                      have e1 : 192 + (64 * (b - 192) + (b1 - 128)) / 64 = b := by omega
                      have e2 : 128 + (64 * (b - 192) + (b1 - 128)) % 64 = b1 := by omega
                      rw [e1, e2]
                      rfl
          · by_cases hC : (b &&& 0xF0 == 0xE0) = true
            · simp only [validateLoop, hA, hB, hC, Bool.false_eq_true, if_false,
                if_true] at hv
              match f, hv with
              | 0, hv => exact absurd hv (by simp [validateThree])
              | g + 1, hv =>
                match rest with
                | [] => exact absurd hv (by simp [validateThree])
                | [b1] => exact absurd hv (by simp [validateThree])
                | b1 :: b2 :: rest2 =>
                  have hb1 : b1 < 256 := hb b1 (by simp)
                  have hb2 : b2 < 256 := hb b2 (by simp)
                  obtain ⟨hbl, hbh, hbm⟩ := byte_lead3 hblt hC
                  by_cases hcc : (b1 &&& 0xC0 != 0x80 || b2 &&& 0xC0 != 0x80) = true
                  · simp [validateThree, hcc] at hv
                  · rw [Bool.or_eq_true] at hcc
                    push_neg at hcc
                    have hc1 : (b1 &&& 0xC0 != 0x80) = false := Bool.not_eq_true _ ▸ hcc.1
                    have hc2 : (b2 &&& 0xC0 != 0x80) = false := Bool.not_eq_true _ ▸ hcc.2
                    obtain ⟨hdl, hdh, hdm⟩ := byte_cont hb1 hc1
                    obtain ⟨hel, heh, hem⟩ := byte_cont hb2 hc2
                    simp only [validateThree, hc1, hc2, Bool.or_self, Bool.false_eq_true,
                      if_false, hbm, hdm, hem] at hv
                    rw [cp3_eq (by omega) (by omega) (by omega)] at hv
                    by_cases hov : 4096 * (b - 224) + 64 * (b1 - 128) + (b2 - 128) < 0x800
                    · rw [if_pos hov] at hv
                      exact absurd hv (by simp)
                    · rw [if_neg hov] at hv
                      by_cases hsg : 0xD800 ≤ 4096 * (b - 224) + 64 * (b1 - 128) + (b2 - 128)
                          ∧ 4096 * (b - 224) + 64 * (b1 - 128) + (b2 - 128) ≤ 0xDFFF
                      · rw [if_pos hsg] at hv
                        exact absurd hv (by simp)
                      · rw [if_neg hsg] at hv
                        obtain ⟨cps, hs, he⟩ := ih g (by omega) rest2
                          (fun c hc => hb c (by simp [hc])) hv
                        refine ⟨(4096 * (b - 224) + 64 * (b1 - 128) + (b2 - 128)) :: cps,
                          ?_, ?_⟩
                        · intro c hc
                          rcases List.mem_cons.mp hc with rfl | hc
                          · exact ⟨by omega, hsg⟩
                          · exact hs c hc
                        · show specUtf8Encode _ ++ specUtf8EncodeAll cps
                            = b :: b1 :: b2 :: rest2
                          rw [specUtf8Encode_three (by omega) (by omega), he]
                          have e1 : 224 + (4096 * (b - 224) + 64 * (b1 - 128) + (b2 - 128))
                              / 4096 = b := by omega
                          have e2 : 128 + (4096 * (b - 224) + 64 * (b1 - 128) + (b2 - 128))
                              / 64 % 64 = b1 := by omega
                          have e3 : 128 + (4096 * (b - 224) + 64 * (b1 - 128) + (b2 - 128))
                              % 64 = b2 := by omega
                          rw [e1, e2, e3]
                          rfl
            · by_cases hD : (b &&& 0xF8 == 0xF0) = true
              · simp only [validateLoop, hA, hB, hC, hD, Bool.false_eq_true, if_false,
                  if_true] at hv
                match f, hv with
                | 0, hv => exact absurd hv (by simp [validateFour])
                | g + 1, hv =>
                  match rest with
                  | [] => exact absurd hv (by simp [validateFour])
                  | [b1] => exact absurd hv (by simp [validateFour])
                  | [b1, b2] => exact absurd hv (by simp [validateFour])
                  | b1 :: b2 :: b3 :: rest2 =>
                    have hb1 : b1 < 256 := hb b1 (by simp)
                    have hb2 : b2 < 256 := hb b2 (by simp)
                    have hb3 : b3 < 256 := hb b3 (by simp)
                    obtain ⟨hbl, hbh, hbm⟩ := byte_lead4 hblt hD
                    by_cases hcc : (b1 &&& 0xC0 != 0x80 || b2 &&& 0xC0 != 0x80
                        || b3 &&& 0xC0 != 0x80) = true
                    · simp [validateFour, hcc] at hv
                    · simp only [Bool.or_eq_true] at hcc
                      push_neg at hcc
                      have hc1 : (b1 &&& 0xC0 != 0x80) = false :=
                        Bool.not_eq_true _ ▸ hcc.1.1
                      have hc2 : (b2 &&& 0xC0 != 0x80) = false :=
                        Bool.not_eq_true _ ▸ hcc.1.2
                      have hc3 : (b3 &&& 0xC0 != 0x80) = false :=
                        Bool.not_eq_true _ ▸ hcc.2
                      obtain ⟨hdl, hdh, hdm⟩ := byte_cont hb1 hc1
                      obtain ⟨hel, heh, hem⟩ := byte_cont hb2 hc2
                      obtain ⟨hfl, hfh, hfm⟩ := byte_cont hb3 hc3
                      simp only [validateFour, hc1, hc2, hc3, Bool.or_self,
                        Bool.false_eq_true, if_false, hbm, hdm, hem, hfm] at hv
                      rw [cp4_eq (by omega) (by omega) (by omega) (by omega)] at hv
                      by_cases hov : 262144 * (b - 240) + 4096 * (b1 - 128)
                          + 64 * (b2 - 128) + (b3 - 128) < 0x10000
                      · rw [if_pos hov] at hv
                        exact absurd hv (by simp)
                      · rw [if_neg hov] at hv
                        by_cases hrg : 262144 * (b - 240) + 4096 * (b1 - 128)
                            + 64 * (b2 - 128) + (b3 - 128) > 0x10FFFF
                        · rw [if_pos hrg] at hv
                          exact absurd hv (by simp)
                        · rw [if_neg hrg] at hv
                          obtain ⟨cps, hs, he⟩ := ih g (by omega) rest2
                            (fun c hc => hb c (by simp [hc])) hv
                          refine ⟨(262144 * (b - 240) + 4096 * (b1 - 128) + 64 * (b2 - 128)
                            + (b3 - 128)) :: cps, ?_, ?_⟩
                          · intro c hc
                            rcases List.mem_cons.mp hc with rfl | hc
                            · exact ⟨by omega, by omega⟩
                            · exact hs c hc
                          · show specUtf8Encode _ ++ specUtf8EncodeAll cps
                              = b :: b1 :: b2 :: b3 :: rest2
                            rw [specUtf8Encode_four (by omega) (by omega), he]
                            have e1 : 240 + (262144 * (b - 240) + 4096 * (b1 - 128)
                                + 64 * (b2 - 128) + (b3 - 128)) / 262144 = b := by omega
                            have e2 : 128 + (262144 * (b - 240) + 4096 * (b1 - 128)
                                + 64 * (b2 - 128) + (b3 - 128)) / 4096 % 64 = b1 := by omega
                            have e3 : 128 + (262144 * (b - 240) + 4096 * (b1 - 128)
                                + 64 * (b2 - 128) + (b3 - 128)) / 64 % 64 = b2 := by omega
                            have e4 : 128 + (262144 * (b - 240) + 4096 * (b1 - 128)
                                + 64 * (b2 - 128) + (b3 - 128)) % 64 = b3 := by omega
                            rw [e1, e2, e3, e4]
                            rfl
              · simp [validateLoop, hA, hB, hC, hD] at hv

/-- C7: on byte sequences (values < 256), `validate_utf8` returns true
exactly for the well-formed UTF-8 strings — the encodings of sequences of
Unicode scalar values. Every listed defect (invalid leading byte,
truncation, bad continuation byte, overlong form, direct surrogate, code
point past U+10FFFF) leaves a sequence outside the encoder's image and is
hence rejected; every defect-free sequence is in the image and accepted.
The validator is a pure function of the bytes. -/
theorem validate_utf8_correct (s : Bytes) (hb : ∀ b ∈ s, b < 256) :
    validate_utf8 s = true ↔
      ∃ cps : List Nat, (∀ cp ∈ cps, IsScalar cp) ∧ specUtf8EncodeAll cps = s := by
  constructor
  · intro h
    exact validateLoop_sound (2 * s.length + 1) s hb h
  · intro ⟨cps, hs, he⟩
    show validateLoop (2 * s.length + 1) s = true
    rw [← he]
    exact validateLoop_encode cps _ hs (by rw [he]; omega)

/-- Witness: `é` (C3 A9) validates via the scalar 0xE9; the overlong
`C0 80` and the raw surrogate `ED A0 80` are rejected. -/
theorem validate_utf8_correct_witness :
    validate_utf8 [195, 169] = true ∧
    validate_utf8 [192, 128] = false ∧
    validate_utf8 [237, 160, 128] = false :=
  ⟨(validate_utf8_correct [195, 169] (by decide)).mpr
      ⟨[233], by decide, rfl⟩,
   rfl, rfl⟩

end Jansson

namespace Jansson

/-! ## Parser stepping lemmas (shared by the number-grammar, trailing-input
and round-trip developments) -/

theorem skipWs_cons_nws {c : Nat} (s : Bytes) (h : isWsByte c = false) :
    skipWs (c :: s) = c :: s :=
  List.dropWhile_cons_of_neg (by simp [h])

theorem peek_cons_nws {c : Nat} (s : Bytes) (h : isWsByte c = false) :
    peek (c :: s) = c := by
  rw [peek, skipWs_cons_nws s h]

theorem consume_cons_nws {c : Nat} (s : Bytes) (h : isWsByte c = false) :
    consume (c :: s) = (c, s) := by
  rw [consume, skipWs_cons_nws s h]

/-- The digit loop stops immediately when the next non-whitespace byte is
not a digit. -/
theorem digitsLoop_stop (fuel : Nat) (acc : Bytes) (s : Bytes)
    (h : isDigitByte (peek s) = false) : digitsLoop fuel acc s = (acc, s) := by
  cases fuel <;> simp [digitsLoop, h]

/-- One accepted digit in the digit loop. -/
theorem digitsLoop_step (fuel : Nat) (acc : Bytes) (s : Bytes)
    (h : isDigitByte (peek s) = true) :
    digitsLoop (fuel + 1) acc s = digitsLoop fuel (acc ++ [(consume s).1]) (consume s).2 := by
  simp [digitsLoop, h]

/-- `parse_value` at positive fuel dispatches a leading `-` or digit to
`parse_number`. -/
theorem parseValue_dispatch_number (f : Nat) (c : Nat) (s : Bytes)
    (hws : isWsByte c = false) (hc : c = 45 ∨ isDigitByte c = true)
    (n1 : c ≠ 34) (n2 : c ≠ 123) (n3 : c ≠ 91) (n4 : c ≠ 116) (n5 : c ≠ 102)
    (n6 : c ≠ 110) :
    parseValue (f + 1) (c :: s) = parseNumber (c :: s) := by
  simp only [parseValue]
  rw [skipWs_cons_nws s hws]
  simp only [List.isEmpty_cons, peek_cons_nws s hws, Bool.false_eq_true, if_false]
  rw [if_neg n1, if_neg n2, if_neg n3, if_neg (by tauto), if_neg n6, if_pos hc]

/-- `parse` in terms of one `parse_value` outcome: trailing non-whitespace
input is a `SyntaxError` with no value, a full parse is the value, and a
descent failure is a `ParseError`. -/
theorem parse_cases (s : Bytes) :
    (∀ v rest, parseValue (parseFuel s) s = .ok (v, rest) →
      ((skipWs rest).isEmpty = true → parse s = .ok v) ∧
      ((skipWs rest).isEmpty = false → parse s = .error .SyntaxError)) ∧
    (∀ e, parseValue (parseFuel s) s = .error e → parse s = .error .ParseError) := by
  constructor
  · intro v rest h
    constructor
    · intro he
      simp [parse, h, he]
    · intro he
      simp [parse, h, he]
  · intro e h
    simp [parse, h]

/-! ## C5 — trailing input after the value read -/

/-- C5 amended: after the parser's (greedy, whitespace-skipping) value
read, any remaining non-whitespace input makes `parse` return
`SyntaxError` and no value — in particular `parse "123 abc"` fails — but
an input that is a textually complete value followed by more JSON need
not fail, because the value reader itself may absorb the continuation
(`"123 456"` parses as the single number 123456; see the counterexample
theorem). Bytes: 49 `1`, 50 `2`, 51 `3`, 32 space, 97 `a`, 98 `b`,
99 `c`. -/
theorem parse_rejects_leftover (s : Bytes) (v : JsonValue) (rest : Bytes)
    (h : parseValue (parseFuel s) s = .ok (v, rest))
    (hne : (skipWs rest).isEmpty = false) :
    parse s = .error .SyntaxError ∧ (∀ w, parse s ≠ .ok w) ∧
    parse [49, 50, 51, 32, 97, 98, 99] = .error .SyntaxError := by
  have hmain := ((parse_cases s).1 v rest h).2 hne
  refine ⟨hmain, fun w hw => ?_, rfl⟩
  rw [hmain] at hw
  cases hw

/-- Witness: `"123 abc"` itself — the value reader stops at `123`,
leaving ` abc`. -/
theorem parse_rejects_leftover_witness :
    parse [49, 50, 51, 32, 97, 98, 99] = .error .SyntaxError :=
  (parse_rejects_leftover [49, 50, 51, 32, 97, 98, 99] (.number (decimalRat 123 0))
    [32, 97, 98, 99] rfl rfl).1

/-- C5 counterexample: `"123 456"` is one complete value (`123`) followed
by whitespace and non-whitespace content that is itself valid JSON
(`456`), yet `parse` succeeds — returning the single number 123456,
because the digit loop reads through the whitespace. The claim predicted
a syntax error for every such input. Bytes: 52 `4`, 53 `5`, 54 `6`. -/
theorem parse_trailing_value_accepted :
    parse [49, 50, 51] = .ok (.number 123) ∧
    (skipWs [32, 52, 53, 54]).isEmpty = false ∧
    parse ([49, 50, 51] ++ [32, 52, 53, 54]) = .ok (.number 123456) :=
  ⟨rfl, rfl, rfl⟩

/-! ## C4 — strictness of the number grammar -/

/-- C4 counterexample: the digit tests of `parse_number` look through
whitespace, so a decimal point, a minus sign, or an exponent marker that
is not immediately followed by a digit still parses whenever a digit
appears after whitespace: `"1. 5"` parses as 1.5, `"- 1"` as -1, and
`"1e 5"` as 100000 — the claim predicted a syntax error for each. Bytes:
46 `.`, 45 `-`, 101 `e`. -/
theorem number_grammar_loopholes :
    parse [49, 46, 32, 53] = .ok (.number (3 / 2)) ∧
    parse [45, 32, 49] = .ok (.number (-1)) ∧
    parse [49, 101, 32, 53] = .ok (.number 100000) := by
  refine ⟨?_, rfl, rfl⟩
  rw [show ((3 : ℚ) / 2) = decimalRat 15 (-1) from by norm_num [decimalRat]]
  rfl

end Jansson


namespace Jansson

theorem isWsByte_of_digit (d : Nat) (h : isDigitByte d = true) : isWsByte d = false := by
  simp only [isDigitByte, Bool.and_eq_true, decide_eq_true_eq] at h
  simp only [isWsByte, Bool.or_eq_false_iff, beq_eq_false_iff_ne, ne_eq]
  omega

/-- `parse_number` integer stage on a single `0`. -/
theorem numInt_zero (t : Bytes) : numInt (48 :: t) = .ok ([48], t) := by
  rw [numInt, @peek_cons_nws 48 t rfl, if_pos rfl, @consume_cons_nws 48 t rfl]

/-- `parse_number` integer stage on a single digit `1` followed by a
non-digit, non-whitespace byte. -/
theorem numInt_one (c : Nat) (s : Bytes) (hcw : isWsByte c = false)
    (hcd : isDigitByte c = false) :
    numInt (49 :: c :: s) = .ok ([49], c :: s) := by
  have hp : peek (49 :: c :: s) = 49 := @peek_cons_nws 49 _ rfl
  rw [numInt, hp, if_neg (show ¬ (49 : Nat) = 48 by norm_num),
    if_pos (show isDigitByte 49 = true from rfl)]
  rw [show (49 :: c :: s : Bytes).length + 1 = (s.length + 2) + 1 from by
    simp only [List.length_cons]]
  rw [digitsLoop_step _ _ _ (show isDigitByte (peek (49 :: c :: s)) = true from by
    rw [hp]; rfl)]
  rw [@consume_cons_nws 49 (c :: s) rfl]
  show Except.ok (digitsLoop (s.length + 2) [49] (c :: s)) = _
  rw [digitsLoop_stop _ _ _ (show isDigitByte (peek (c :: s)) = false from by
    rw [@peek_cons_nws c s hcw]; exact hcd)]

/-- C4 amended: except for whitespace (which every digit test reads
through — see the counterexample theorem), the number grammar is strict:
a leading zero is not followed by more digits (`0` parses alone and the
digit run becomes trailing garbage, hence `SyntaxError`), and a lone
minus sign, a decimal point, an exponent marker, or a signed exponent
marker whose next non-whitespace byte is not a digit aborts
`parse_number`, which `parse` reports as `ParseError`. Bytes: 48 `0`,
45 `-`, 49 `1`, 46 `.`, 101 `e`, 43 `+`. -/
theorem number_grammar_requires_digits :
    (∀ ds : Bytes, ds ≠ [] → (∀ d ∈ ds, isDigitByte d = true) →
        parse (48 :: ds) = .error .SyntaxError) ∧
    (∀ s : Bytes, isDigitByte (peek s) = false →
        parse (45 :: s) = .error .ParseError) ∧
    (∀ s : Bytes, isDigitByte (peek s) = false →
        parse (49 :: 46 :: s) = .error .ParseError) ∧
    (∀ s : Bytes, isDigitByte (peek s) = false → peek s ≠ 43 → peek s ≠ 45 →
        parse (49 :: 101 :: s) = .error .ParseError) ∧
    (∀ s : Bytes, isDigitByte (peek s) = false →
        parse (49 :: 101 :: 43 :: s) = .error .ParseError) := by
  refine ⟨?_, ?_, ?_, ?_, ?_⟩
  · intro ds hne hds
    obtain ⟨d, ds2, rfl⟩ : ∃ d ds2, ds = d :: ds2 := by
      cases ds with
      | nil => exact absurd rfl hne
      | cons d ds2 => exact ⟨d, ds2, rfl⟩
    have hd : isDigitByte d = true := hds d (by simp)
    have hdw : isWsByte d = false := isWsByte_of_digit d hd
    have hdb : 48 ≤ d ∧ d ≤ 57 := by
      simpa [isDigitByte, Bool.and_eq_true, decide_eq_true_eq] using hd
    have hpd : peek (d :: ds2) = d := @peek_cons_nws d ds2 hdw
    have hpv : parseValue (parseFuel (48 :: d :: ds2)) (48 :: d :: ds2)
        = .ok (.number (decimalRat 0 0), d :: ds2) := by
      rw [show parseFuel (48 :: d :: ds2) = 2 * ds2.length + 19 + 1 from by
        simp [parseFuel]; ring]
      rw [parseValue_dispatch_number _ 48 _ rfl (Or.inr rfl) (by decide) (by decide)
        (by decide) (by decide) (by decide) (by decide)]
      have hsign : numSign (48 :: d :: ds2) = ([], 48 :: d :: ds2) := by
        rw [numSign, @peek_cons_nws 48 _ rfl,
          if_neg (show ¬ ((48 : Nat) = 45 ∨ (48 : Nat) = 43) by norm_num)]
      have hint := numInt_zero (d :: ds2)
      have hfrac : numFrac (d :: ds2) = .ok ([], d :: ds2) := by
        rw [numFrac, hpd, if_neg (show ¬ d = 46 by omega)]
      have hexp : numExp (d :: ds2) = .ok ([], d :: ds2) := by
        rw [numExp, hpd, if_neg (show ¬ (d = 101 ∨ d = 69) by omega)]
      simp only [parseNumber, hsign, hint, hfrac, hexp]
      rfl
    exact ((parse_cases _).1 _ _ hpv).2 (by rw [skipWs_cons_nws ds2 hdw]; rfl)
  · intro s h
    have hne48 : ¬ peek s = 48 := fun he => by simp [he, isDigitByte] at h
    have hpv : parseValue (parseFuel (45 :: s)) (45 :: s)
        = .error "Invalid number format" := by
      rw [show parseFuel (45 :: s) = 2 * s.length + 17 + 1 from by simp [parseFuel]; ring]
      rw [parseValue_dispatch_number _ 45 _ rfl (Or.inl rfl) (by decide) (by decide)
        (by decide) (by decide) (by decide) (by decide)]
      have hsign : numSign (45 :: s) = ([45], s) := by
        rw [numSign, @peek_cons_nws 45 s rfl,
          if_pos (show (45 : Nat) = 45 ∨ (45 : Nat) = 43 from Or.inl rfl),
          @consume_cons_nws 45 s rfl]
      have hint : numInt s = .error "Invalid number format" := by
        rw [numInt, if_neg hne48,
          if_neg (show ¬ isDigitByte (peek s) = true from by simp [h])]
      simp only [parseNumber, hsign, hint]
    exact (parse_cases _).2 _ hpv
  · intro s h
    have hpv : parseValue (parseFuel (49 :: 46 :: s)) (49 :: 46 :: s)
        = .error "Invalid number format - expected digit after decimal point" := by
      rw [show parseFuel (49 :: 46 :: s) = 2 * s.length + 19 + 1 from by
        simp [parseFuel]; ring]
      rw [parseValue_dispatch_number _ 49 _ rfl (Or.inr rfl) (by decide) (by decide)
        (by decide) (by decide) (by decide) (by decide)]
      have hsign : numSign (49 :: 46 :: s) = ([], 49 :: 46 :: s) := by
        rw [numSign, @peek_cons_nws 49 _ rfl,
          if_neg (show ¬ ((49 : Nat) = 45 ∨ (49 : Nat) = 43) by norm_num)]
      have hint := numInt_one 46 s rfl rfl
      have hfrac : numFrac (46 :: s)
          = .error "Invalid number format - expected digit after decimal point" := by
        rw [numFrac, @peek_cons_nws 46 s rfl, if_pos (show (46 : Nat) = 46 from rfl),
          @consume_cons_nws 46 s rfl,
          if_pos (show (!isDigitByte (peek s)) = true from by rw [h]; rfl)]
      simp only [parseNumber, hsign, hint, hfrac]
    exact (parse_cases _).2 _ hpv
  · intro s h h43 h45
    have hpv : parseValue (parseFuel (49 :: 101 :: s)) (49 :: 101 :: s)
        = .error "Invalid number format - expected digit in exponent" := by
      rw [show parseFuel (49 :: 101 :: s) = 2 * s.length + 19 + 1 from by
        simp [parseFuel]; ring]
      rw [parseValue_dispatch_number _ 49 _ rfl (Or.inr rfl) (by decide) (by decide)
        (by decide) (by decide) (by decide) (by decide)]
      have hsign : numSign (49 :: 101 :: s) = ([], 49 :: 101 :: s) := by
        rw [numSign, @peek_cons_nws 49 _ rfl,
          if_neg (show ¬ ((49 : Nat) = 45 ∨ (49 : Nat) = 43) by norm_num)]
      have hint := numInt_one 101 s rfl rfl
      have hfrac : numFrac (101 :: s) = .ok ([], 101 :: s) := by
        rw [numFrac, @peek_cons_nws 101 s rfl, if_neg (show ¬ (101 : Nat) = 46 by norm_num)]
      have hexp : numExp (101 :: s)
          = .error "Invalid number format - expected digit in exponent" := by
        simp [numExp, peek_cons_nws, consume_cons_nws, isWsByte, h, h43, h45]
      simp only [parseNumber, hsign, hint, hfrac, hexp]
    exact (parse_cases _).2 _ hpv
  · intro s h
    have hpv : parseValue (parseFuel (49 :: 101 :: 43 :: s)) (49 :: 101 :: 43 :: s)
        = .error "Invalid number format - expected digit in exponent" := by
      rw [show parseFuel (49 :: 101 :: 43 :: s) = 2 * s.length + 21 + 1 from by
        simp [parseFuel]; ring]
      rw [parseValue_dispatch_number _ 49 _ rfl (Or.inr rfl) (by decide) (by decide)
        (by decide) (by decide) (by decide) (by decide)]
      have hsign : numSign (49 :: 101 :: 43 :: s) = ([], 49 :: 101 :: 43 :: s) := by
        rw [numSign, @peek_cons_nws 49 _ rfl,
          if_neg (show ¬ ((49 : Nat) = 45 ∨ (49 : Nat) = 43) by norm_num)]
      have hint := numInt_one 101 (43 :: s) rfl rfl
      have hfrac : numFrac (101 :: 43 :: s) = .ok ([], 101 :: 43 :: s) := by
        rw [numFrac, @peek_cons_nws 101 (43 :: s) rfl,
          if_neg (show ¬ (101 : Nat) = 46 by norm_num)]
      have hexp : numExp (101 :: 43 :: s)
          = .error "Invalid number format - expected digit in exponent" := by
        simp [numExp, peek_cons_nws, consume_cons_nws, isWsByte, h]
      simp only [parseNumber, hsign, hint, hfrac, hexp]
    exact (parse_cases _).2 _ hpv

/-- Witness: `"00"` gives `SyntaxError`; `"-]"`, `"1.]"`, `"1e]"` and
`"1e+]"` give `ParseError` (93 is `]`, not a digit). -/
theorem number_grammar_requires_digits_witness :
    parse [48, 48] = .error .SyntaxError ∧
    parse [45, 93] = .error .ParseError ∧
    parse [49, 46, 93] = .error .ParseError ∧
    parse [49, 101, 93] = .error .ParseError ∧
    parse [49, 101, 43, 93] = .error .ParseError :=
  ⟨number_grammar_requires_digits.1 [48] (by decide) (by decide),
   number_grammar_requires_digits.2.1 [93] (by decide),
   number_grammar_requires_digits.2.2.1 [93] (by decide),
   number_grammar_requires_digits.2.2.2.1 [93] (by decide) (by decide) (by decide),
   number_grammar_requires_digits.2.2.2.2 [93] (by decide)⟩

end Jansson

namespace Jansson

/-! ## C2 — the serialize/parse round trip

Definitions for the amended round-trip statement: the trees on which the
non-pretty serialization parses back exactly. `goodV` captures the
side conditions the whitespace-skipping reader forces: no space byte
(32) inside strings and keys (every other byte survives the
escape/unescape cycle, including the control bytes escaped as named or
`\u00XX` escapes), integer-valued numbers within the int64 cast range of
the serializer, and objects with pairwise-distinct keys (the
`unordered_map` invariant, under which the parser's `set` calls rebuild
the entry list verbatim). -/

/-- Keys/strings that survive the round trip: no space byte. -/
def goodKey (k : Bytes) : Bool := k.all (fun b => !(b == 32))

mutual
/-- Trees whose non-pretty serialization re-parses to the same tree. -/
def goodV : JsonValue → Bool
  | .null => true
  | .boolean _ => true
  | .number q => q.den == 1 && decide (q.num.natAbs < 2 ^ 63)
  | .string s => s.all (fun b => !(b == 32))
  | .array xs => goodL xs
  | .object es => distinctKeys (es.map Prod.fst) && goodE es

/-- `goodV` on every array element. -/
def goodL : List JsonValue → Bool
  | [] => true
  | x :: r => goodV x && goodL r

/-- `goodKey`/`goodV` on every object entry. -/
def goodE : List (Bytes × JsonValue) → Bool
  | [] => true
  | (k, v) :: r => goodKey k && goodV v && goodE r
end

mutual
/-- Fuel requirement of `parse_value` on a serialized tree: one unit per
mutual-block call. -/
def jsizeV : JsonValue → Nat
  | .null => 1
  | .boolean _ => 1
  | .number _ => 1
  | .string _ => 1
  | .array xs => 2 + jsizeL xs
  | .object es => 2 + jsizeE es

/-- Fuel requirement of the array element loop. -/
def jsizeL : List JsonValue → Nat
  | [] => 0
  | x :: r => 1 + jsizeV x + jsizeL r

/-- Fuel requirement of the object member loop. -/
def jsizeE : List (Bytes × JsonValue) → Nat
  | [] => 0
  | (_, v) :: r => 1 + jsizeV v + jsizeE r
end

/-- Bytes that stop `parse_number` cleanly: not a digit and none of
`.`/`e`/`E`. The byte after a serialized number is always `,` (44),
`]` (93), the closing brace (125), or the end-of-input 0. -/
def numDelim (b : Nat) : Bool :=
  !isDigitByte b && !(b == 46) && !(b == 101) && !(b == 69)

theorem numDelim_facts (b : Nat) (h : numDelim b = true) :
    isDigitByte b = false ∧ b ≠ 46 ∧ b ≠ 101 ∧ b ≠ 69 := by
  simp only [numDelim, Bool.and_eq_true, Bool.not_eq_true',
    beq_eq_false_iff_ne, ne_eq] at h
  exact ⟨h.1.1.1, h.1.1.2, h.1.2, h.2⟩

/-! ### Decimal digit strings -/

theorem natDigitsAux_spec (n : Nat) : ∀ (fuel : Nat) (acc : Bytes), n < fuel →
    natDigitsAux fuel n acc = natDigits n ++ acc := by
  induction n using Nat.strong_induction_on with
  | _ n ih =>
    intro fuel acc hf
    match fuel, hf with
    | fuel + 1, hf =>
      by_cases h10 : n < 10
      · simp [natDigitsAux, natDigits, h10]
      · push_neg at h10
        have hstep : natDigits n = natDigits (n / 10) ++ [48 + n % 10] := by
          rw [natDigits]
          simp only [natDigitsAux]
          rw [if_neg (by omega)]
          exact ih (n / 10) (by omega) n [48 + n % 10] (by omega)
        rw [hstep]
        simp only [natDigitsAux]
        rw [if_neg (by omega)]
        rw [ih (n / 10) (by omega) fuel ((48 + n % 10) :: acc) (by omega)]
        simp

theorem natDigits_small (n : Nat) (h : n < 10) : natDigits n = [48 + n] := by
  simp [natDigits, natDigitsAux, h, Nat.mod_eq_of_lt h]

theorem natDigits_step (n : Nat) (h : 10 ≤ n) :
    natDigits n = natDigits (n / 10) ++ [48 + n % 10] := by
  rw [natDigits]
  simp only [natDigitsAux]
  rw [if_neg (by omega)]
  exact natDigitsAux_spec (n / 10) n [48 + n % 10] (by omega)

theorem natDigits_all_digits (n : Nat) : ∀ b ∈ natDigits n, isDigitByte b = true := by
  induction n using Nat.strong_induction_on with
  | _ n ih =>
    by_cases h : n < 10
    · rw [natDigits_small n h]
      intro b hb
      simp only [List.mem_singleton] at hb
      subst hb
      simp only [isDigitByte, Bool.and_eq_true, decide_eq_true_eq]
      omega
    · rw [natDigits_step n (by omega)]
      intro b hb
      rcases List.mem_append.mp hb with h1 | h1
      · exact ih (n / 10) (by omega) b h1
      · simp only [List.mem_singleton] at h1
        subst h1
        simp only [isDigitByte, Bool.and_eq_true, decide_eq_true_eq]
        omega

theorem digitsVal_append_one (xs : Bytes) (d : Nat) :
    digitsVal (xs ++ [d]) = digitsVal xs * 10 + (d - 48) := by
  simp [digitsVal, List.foldl_append]

theorem digitsVal_natDigits (n : Nat) : digitsVal (natDigits n) = n := by
  induction n using Nat.strong_induction_on with
  | _ n ih =>
    by_cases h : n < 10
    · rw [natDigits_small n h]
      simp [digitsVal]
    · rw [natDigits_step n (by omega), digitsVal_append_one, ih (n / 10) (by omega)]
      omega

theorem natDigits_head (n : Nat) : ∃ b t, natDigits n = b :: t ∧ 48 ≤ b ∧ b ≤ 57 ∧
    (1 ≤ n → 49 ≤ b) := by
  induction n using Nat.strong_induction_on with
  | _ n ih =>
    by_cases h : n < 10
    · exact ⟨48 + n, [], natDigits_small n h, by omega, by omega, by omega⟩
    · obtain ⟨b, t, hbt, h1, h2, h3⟩ := ih (n / 10) (by omega)
      refine ⟨b, t ++ [48 + n % 10], ?_, h1, h2, fun _ => h3 (by omega)⟩
      rw [natDigits_step n (by omega), hbt]
      rfl

theorem natDigits_ne_nil (n : Nat) : natDigits n ≠ [] := by
  obtain ⟨b, t, hbt, _⟩ := natDigits_head n
  simp [hbt]

theorem takeDigits_all (ds : Bytes) (h : ∀ b ∈ ds, isDigitByte b = true) :
    takeDigits ds = (ds, []) := by
  induction ds with
  | nil => rfl
  | cons b t ih =>
    simp [takeDigits, h b (by simp), ih (fun x hx => h x (by simp [hx]))]

theorem digitsLoop_all (ds : Bytes) : ∀ (acc rest : Bytes) (fuel : Nat),
    (∀ b ∈ ds, isDigitByte b = true) → isDigitByte (peek rest) = false →
    ds.length < fuel → digitsLoop fuel acc (ds ++ rest) = (acc ++ ds, rest) := by
  induction ds with
  | nil =>
    intro acc rest fuel _ hr _
    simpa using digitsLoop_stop fuel acc rest hr
  | cons d t ih =>
    intro acc rest fuel hds hr hf
    obtain ⟨f, rfl⟩ : ∃ f, fuel = f + 1 := ⟨fuel - 1, by omega⟩
    have hd := hds d (by simp)
    have hdw := isWsByte_of_digit d hd
    rw [show (d :: t) ++ rest = d :: (t ++ rest) from rfl]
    rw [digitsLoop_step f acc (d :: (t ++ rest)) (by
      rw [@peek_cons_nws d (t ++ rest) hdw]; exact hd)]
    rw [@consume_cons_nws d (t ++ rest) hdw]
    show digitsLoop f (acc ++ [d]) (t ++ rest) = _
    rw [ih (acc ++ [d]) rest f (fun x hx => hds x (by simp [hx])) hr (by
      simp only [List.length_cons] at hf; omega)]
    simp

/-! ### Misc helpers shared by the round-trip proof -/

theorem isWsByte_ge_false (b : Nat) (h : 33 ≤ b) : isWsByte b = false := by
  simp only [isWsByte, Bool.or_eq_false_iff, beq_eq_false_iff_ne, ne_eq]
  omega

theorem skipWs_space_cons (c : Nat) (t : Bytes) (h : isWsByte c = false) :
    skipWs (32 :: c :: t) = c :: t := by
  rw [skipWs, List.dropWhile_cons_of_pos (by rfl), List.dropWhile_cons_of_neg (by simp [h])]

theorem set_append (acc : List (Bytes × JsonValue)) (k : Bytes) (v : JsonValue)
    (h : ∀ e ∈ acc, e.1 ≠ k) : JsonObject.set acc k v = acc ++ [(k, v)] := by
  induction acc with
  | nil => rfl
  | cons e r ih =>
    obtain ⟨k0, v0⟩ := e
    simp only [JsonObject.set]
    rw [if_neg (h (k0, v0) (by simp)), ih (fun x hx => h x (by simp [hx]))]
    rfl

theorem expectSeq_exact (cs : List Nat) : ∀ rest, (∀ c ∈ cs, isWsByte c = false) →
    expectSeq cs (cs ++ rest) = .ok rest := by
  induction cs with
  | nil => intro rest _; rfl
  | cons c cs ih =>
    intro rest h
    have hc := h c (by simp)
    simp only [expectSeq, List.cons_append]
    rw [expect, @consume_cons_nws c (cs ++ rest) hc]
    simp [ih rest (fun x hx => h x (by simp [hx]))]

end Jansson

namespace Jansson

/-! ### The escape / parse-raw-string round trip -/

/-- One named two-byte escape step of the `parse_raw_string` loop. -/
theorem rsl_step2 (fuel : Nat) (acc : Bytes) (e out : Nat) (T : Bytes)
    (hmap : (e, out) ∈ [(34, 34), (92, 92), (47, 47), (98, 8), (102, 12),
      (110, 10), (114, 13), (116, 9)]) :
    parseRawStringLoop (fuel + 1) acc (92 :: e :: T) =
      parseRawStringLoop fuel (acc ++ [out]) T := by
  fin_cases hmap <;>
    simp [parseRawStringLoop, consume, skipWs, List.dropWhile, isWsByte]

/-- One verbatim-byte step of the `parse_raw_string` loop. -/
theorem rsl_plain (fuel : Nat) (acc : Bytes) (c : Nat) (T : Bytes)
    (hcw : isWsByte c = false) (h34 : c ≠ 34) (h92 : c ≠ 92) :
    parseRawStringLoop (fuel + 1) acc (c :: T) =
      parseRawStringLoop fuel (acc ++ [c]) T := by
  simp [parseRawStringLoop, @consume_cons_nws c T hcw, h34, h92]

/-- One `\u00XX` control-byte step of the `parse_raw_string` loop: the four
hex digits the serializer printed re-assemble to the original byte. -/
theorem rsl_u (fuel : Nat) (acc : Bytes) (b : Nat) (hb : b < 32) (T : Bytes) :
    parseRawStringLoop (fuel + 1) acc ((92 :: 117 :: hex4Bytes b) ++ T) =
      parseRawStringLoop fuel (acc ++ [b]) T := by
  have hx : ∀ m : Nat, m < 16 → hexVal? (hexDigitByte m) = some m := by decide
  have hm : ∀ y : Nat, y &&& 15 < 16 := fun y =>
    Nat.lt_succ_of_le (Nat.and_le_right)
  rw [show (92 :: 117 :: hex4Bytes b) ++ T =
    92 :: 117 :: hexDigitByte (b >>> 12 &&& 15) :: hexDigitByte (b >>> 8 &&& 15) ::
      hexDigitByte (b >>> 4 &&& 15) :: hexDigitByte (b &&& 15) :: T from by
    simp [hex4Bytes]]
  rw [parseRawStringLoop_u fuel acc (hx _ (hm _)) (hx _ (hm _)) (hx _ (hm _))
    (hx _ (hm _)) T]
  have hval : ∀ c : Nat, c < 32 →
      ((((c >>> 12 &&& 15) * 16 + (c >>> 8 &&& 15)) * 16 + (c >>> 4 &&& 15)) * 16 +
        (c &&& 15)) = c := by decide
  rw [hval b hb]
  have hcp : ∀ c : Nat, c < 32 → codePointUtf8 (c : Int) = [c] := by decide
  rw [hcp b hb]

theorem escapeByte_len (b : Nat) : 1 ≤ (escapeByte b).length := by
  simp only [escapeByte]
  repeat' split
  all_goals simp [hex4Bytes]

theorem length_le_flatMap (s : Bytes) : s.length ≤ (s.flatMap escapeByte).length := by
  induction s with
  | nil => simp
  | cons b t ih =>
    simp only [List.flatMap_cons, List.length_append, List.length_cons]
    have := escapeByte_len b
    omega

/-- The core escape round trip: the scan loop of `parse_raw_string` maps the
escaped body of a space-free byte string back to the original bytes and
stops at the closing quote. -/
theorem escRT (s : Bytes) : ∀ (acc rest : Bytes) (fuel : Nat), (∀ b ∈ s, b ≠ 32) →
    s.length < fuel →
    parseRawStringLoop fuel acc (s.flatMap escapeByte ++ (34 :: rest)) =
      .ok (acc ++ s, rest) := by
  induction s with
  | nil =>
    intro acc rest fuel _ hf
    obtain ⟨f, rfl⟩ : ∃ f, fuel = f + 1 := ⟨fuel - 1, by omega⟩
    simp [parseRawStringLoop_quote]
  | cons b t ih =>
    intro acc rest fuel hs hf
    obtain ⟨f, rfl⟩ : ∃ f, fuel = f + 1 := ⟨fuel - 1, by omega⟩
    have hb32 : b ≠ 32 := hs b (by simp)
    have ht : ∀ x ∈ t, x ≠ 32 := fun x hx => hs x (by simp [hx])
    have hft : t.length < f := by simp only [List.length_cons] at hf; omega
    simp only [List.flatMap_cons, List.append_assoc]
    by_cases hesc : b = 34 ∨ b = 92 ∨ b = 8 ∨ b = 12 ∨ b = 10 ∨ b = 13 ∨ b = 9
    · have step : ∀ (e out : Nat), escapeByte out = [92, e] →
          ((e, out) ∈ [(34, 34), (92, 92), (47, 47), (98, 8), (102, 12),
            (110, 10), (114, 13), (116, 9)]) →
          parseRawStringLoop (f + 1) acc
            (escapeByte out ++ (t.flatMap escapeByte ++ (34 :: rest))) =
            .ok (acc ++ out :: t, rest) := by
        intro e out heb hmap
        rw [heb]
        rw [show ([92, e] : Bytes) ++ (t.flatMap escapeByte ++ (34 :: rest)) =
          92 :: e :: (t.flatMap escapeByte ++ (34 :: rest)) from rfl]
        rw [rsl_step2 f acc e out _ hmap]
        rw [ih (acc ++ [out]) rest f ht hft]
        simp
      rcases hesc with rfl | rfl | rfl | rfl | rfl | rfl | rfl
      · exact step 34 34 rfl (by decide)
      · exact step 92 92 rfl (by decide)
      · exact step 98 8 rfl (by decide)
      · exact step 102 12 rfl (by decide)
      · exact step 110 10 rfl (by decide)
      · exact step 114 13 rfl (by decide)
      · exact step 116 9 rfl (by decide)
    · push_neg at hesc
      obtain ⟨n34, n92, n8, n12, n10, n13, n9⟩ := hesc
      by_cases hlt : b < 32
      · have heb : escapeByte b = 92 :: 117 :: hex4Bytes b := by
          simp [escapeByte, n34, n92, n8, n12, n10, n13, n9, hlt]
        rw [heb]
        rw [show (92 :: 117 :: hex4Bytes b) ++ (t.flatMap escapeByte ++ (34 :: rest)) =
          (92 :: 117 :: hex4Bytes b) ++ (t.flatMap escapeByte ++ (34 :: rest)) from rfl]
        rw [rsl_u f acc b hlt _]
        rw [ih (acc ++ [b]) rest f ht hft]
        simp
      · have hge : 33 ≤ b := by omega
        have heb : escapeByte b = [b] := by
          simp [escapeByte, n34, n92, n8, n12, n10, n13, n9, show ¬ b < 32 by omega]
        rw [heb]
        rw [show ([b] : Bytes) ++ (t.flatMap escapeByte ++ (34 :: rest)) =
          b :: (t.flatMap escapeByte ++ (34 :: rest)) from rfl]
        rw [rsl_plain f acc b _ (isWsByte_ge_false b hge) n34 n92]
        rw [ih (acc ++ [b]) rest f ht hft]
        simp

/-- `parse_raw_string` on an escaped space-free string: the original bytes
come back and the input continues after the closing quote. -/
theorem parseRawString_rt (s : Bytes) (hs : ∀ b ∈ s, b ≠ 32) (rest : Bytes) :
    parseRawString (escape s ++ rest) = .ok (s, rest) := by
  have h1 : escape s ++ rest = 34 :: (s.flatMap escapeByte ++ (34 :: rest)) := by
    simp [escape]
  rw [parseRawString, h1]
  rw [show expect 34 (34 :: (s.flatMap escapeByte ++ (34 :: rest))) =
    .ok (s.flatMap escapeByte ++ (34 :: rest)) from by
      rw [expect, @consume_cons_nws 34 _ rfl]
      simp]
  show parseRawStringLoop ((s.flatMap escapeByte ++ (34 :: rest)).length + 1) []
    (s.flatMap escapeByte ++ (34 :: rest)) = _
  rw [escRT s [] rest _ hs (by
    have := length_le_flatMap s
    simp only [List.length_append, List.length_cons]
    omega)]
  simp

/-- `parse_string` level of the round trip. -/
theorem parseString_rt (s : Bytes) (hs : ∀ b ∈ s, b ≠ 32) (rest : Bytes) :
    parseString (escape s ++ rest) = .ok (.string s, rest) := by
  rw [parseString, parseRawString_rt s hs rest]
  rfl

end Jansson

namespace Jansson

/-! ### The integer-number round trip -/

theorem decimalRat_int (n : Int) : decimalRat n 0 = (n : ℚ) := by
  simp [decimalRat]

theorem ratCast_num_of_den_one (q : ℚ) (h : q.den = 1) : ((q.num : Int) : ℚ) = q := by
  have hq := Rat.num_div_den q
  rw [h] at hq
  simpa using hq

/-- The post-sign stage of `std::stod` on a pure digit string. -/
theorem ratOfNumStrCore_digits (sgn : Int) (ds : Bytes) (hne : ds.isEmpty = false)
    (hds : ∀ b ∈ ds, isDigitByte b = true) :
    ratOfNumStrCore sgn ds = some (decimalRat (sgn * (digitsVal ds : Int)) 0) := by
  simp only [ratOfNumStrCore, takeDigits_all ds hds, hne, Bool.false_eq_true, if_false,
    show digitsVal ([] : Bytes) = 0 from rfl]
  norm_num

/-- The sign dispatch of `ratOfNumStr` falls through on a non-sign head. -/
theorem ratOfNumStr_cons_other (b : Nat) (t : Bytes) (h45 : b ≠ 45) (h43 : b ≠ 43) :
    ratOfNumStr (b :: t) = ratOfNumStrCore 1 (b :: t) := by
  simp only [ratOfNumStr]
  split
  next r heq => rw [List.cons.injEq] at heq; exact absurd heq.1 h45
  next r heq => rw [List.cons.injEq] at heq; exact absurd heq.1 h43
  next => rfl

/-- `std::stod` on a pure digit string: the digits value. -/
theorem ratOfNumStr_digits (ds : Bytes) (hne : ds ≠ [])
    (hds : ∀ b ∈ ds, isDigitByte b = true) :
    ratOfNumStr ds = some (decimalRat (digitsVal ds) 0) := by
  obtain ⟨b, t, rfl⟩ : ∃ b t, ds = b :: t := by
    cases ds with
    | nil => exact absurd rfl hne
    | cons b t => exact ⟨b, t, rfl⟩
  have hbb : 48 ≤ b ∧ b ≤ 57 := by
    simpa [isDigitByte, Bool.and_eq_true, decide_eq_true_eq] using hds b (by simp)
  rw [ratOfNumStr_cons_other b t (by omega) (by omega)]
  rw [ratOfNumStrCore_digits 1 (b :: t) rfl hds, one_mul]

/-- `std::stod` on a minus sign and a digit string. -/
theorem ratOfNumStr_neg_digits (ds : Bytes) (hne : ds ≠ [])
    (hds : ∀ b ∈ ds, isDigitByte b = true) :
    ratOfNumStr (45 :: ds) = some (decimalRat (-(digitsVal ds : Int)) 0) := by
  have hie : ds.isEmpty = false := by
    cases ds with
    | nil => exact absurd rfl hne
    | cons b t => rfl
  rw [show ratOfNumStr (45 :: ds) = ratOfNumStrCore (-1) ds from rfl]
  rw [ratOfNumStrCore_digits (-1) ds hie hds, neg_one_mul]

/-- The integer stage of `parse_number` consumes exactly the serialized
digits of `m`. -/
theorem numInt_rt (m : Nat) (rest : Bytes) (hr : isDigitByte (peek rest) = false) :
    numInt (natDigits m ++ rest) = .ok (natDigits m, rest) := by
  obtain ⟨b, t, hbt, h48, h57, h1⟩ := natDigits_head m
  by_cases hm : m = 0
  · subst hm
    rw [show natDigits 0 = [48] from rfl]
    exact numInt_zero rest
  · have hb49 : 49 ≤ b := h1 (by omega)
    rw [hbt]
    rw [show (b :: t) ++ rest = b :: (t ++ rest) from rfl]
    have hpb : peek (b :: (t ++ rest)) = b :=
      @peek_cons_nws b _ (isWsByte_of_digit b (by
        simp only [isDigitByte, Bool.and_eq_true, decide_eq_true_eq]; omega))
    rw [numInt, hpb]
    rw [if_neg (by omega)]
    rw [if_pos (show isDigitByte b = true from by
      simp only [isDigitByte, Bool.and_eq_true, decide_eq_true_eq]; omega)]
    rw [show b :: (t ++ rest) = (b :: t) ++ rest from rfl]
    rw [digitsLoop_all (b :: t) [] rest _ (by rw [← hbt]; exact natDigits_all_digits m)
      hr (by simp only [List.length_append, List.length_cons]; omega)]
    simp

/-- `parse_number` on a serialized integer followed by a delimiter byte
returns exactly the original rational. -/
theorem parseNumber_rt (q : ℚ) (hden : q.den = 1) (rest : Bytes)
    (hr : numDelim (peek rest) = true) :
    parseNumber (intBytes q.num ++ rest) = .ok (.number q, rest) := by
  obtain ⟨hdg, h46, h101, h69⟩ := numDelim_facts _ hr
  have hfrac : numFrac rest = .ok ([], rest) := by rw [numFrac, if_neg h46]
  have hexp : numExp rest = .ok ([], rest) := by
    rw [numExp, if_neg (not_or.mpr ⟨h101, h69⟩)]
  have hint := numInt_rt q.num.natAbs rest hdg
  rcases lt_or_ge q.num 0 with hneg | hpos
  · have hib : intBytes q.num = 45 :: natDigits q.num.natAbs := by
      simp [intBytes, hneg]
    rw [hib]
    rw [show (45 :: natDigits q.num.natAbs) ++ rest =
      45 :: (natDigits q.num.natAbs ++ rest) from rfl]
    have hsign : numSign (45 :: (natDigits q.num.natAbs ++ rest)) =
        ([45], natDigits q.num.natAbs ++ rest) := by
      rw [numSign, @peek_cons_nws 45 _ rfl, if_pos (Or.inl rfl),
        @consume_cons_nws 45 _ rfl]
    simp only [parseNumber, hsign, hint, hfrac, hexp]
    rw [show ([45] : Bytes) ++ natDigits q.num.natAbs ++ [] ++ [] =
      45 :: natDigits q.num.natAbs from by simp]
    rw [ratOfNumStr_neg_digits (natDigits q.num.natAbs) (natDigits_ne_nil _)
      (natDigits_all_digits _)]
    rw [digitsVal_natDigits]
    rw [show (-(q.num.natAbs : Int)) = q.num from by omega]
    rw [decimalRat_int, ratCast_num_of_den_one q hden]
  · have hib : intBytes q.num = natDigits q.num.natAbs := by
      simp [intBytes, Int.not_lt.mpr hpos]
    rw [hib]
    obtain ⟨b, t, hbt, h48, h57, _⟩ := natDigits_head q.num.natAbs
    have hsign : numSign (natDigits q.num.natAbs ++ rest) =
        ([], natDigits q.num.natAbs ++ rest) := by
      rw [numSign]
      rw [show natDigits q.num.natAbs ++ rest = b :: (t ++ rest) from by rw [hbt]; rfl]
      rw [@peek_cons_nws b _ (isWsByte_of_digit b (by
        simp only [isDigitByte, Bool.and_eq_true, decide_eq_true_eq]; omega))]
      rw [if_neg (by omega)]
    simp only [parseNumber, hsign, hint, hfrac, hexp]
    rw [show ([] : Bytes) ++ natDigits q.num.natAbs ++ [] ++ [] =
      natDigits q.num.natAbs from by simp]
    rw [ratOfNumStr_digits (natDigits q.num.natAbs) (natDigits_ne_nil _)
      (natDigits_all_digits _)]
    rw [digitsVal_natDigits]
    rw [show ((q.num.natAbs : Int)) = q.num from by omega]
    rw [decimalRat_int, ratCast_num_of_den_one q hden]

end Jansson

namespace Jansson

/-! ### `parse_value` dispatch on the first serialized byte -/

theorem parseValue_dispatch_string (f : Nat) (s : Bytes) :
    parseValue (f + 1) (34 :: s) = parseString (34 :: s) := by
  simp only [parseValue]
  rw [@skipWs_cons_nws 34 s rfl]
  simp only [List.isEmpty_cons, @peek_cons_nws 34 s rfl, Bool.false_eq_true, if_false]
  rw [if_pos trivial]

theorem parseValue_dispatch_object (f : Nat) (s : Bytes) :
    parseValue (f + 1) (123 :: s) = parseObject f (123 :: s) := by
  simp only [parseValue]
  rw [@skipWs_cons_nws 123 s rfl]
  simp only [List.isEmpty_cons, @peek_cons_nws 123 s rfl, Bool.false_eq_true, if_false]
  rw [if_neg (by norm_num), if_pos trivial]

theorem parseValue_dispatch_array (f : Nat) (s : Bytes) :
    parseValue (f + 1) (91 :: s) = parseArray f (91 :: s) := by
  simp only [parseValue]
  rw [@skipWs_cons_nws 91 s rfl]
  simp only [List.isEmpty_cons, @peek_cons_nws 91 s rfl, Bool.false_eq_true, if_false]
  rw [if_neg (by norm_num), if_neg (by norm_num), if_pos trivial]

theorem parseValue_dispatch_true (f : Nat) (s : Bytes) :
    parseValue (f + 1) (116 :: s) = parseBoolean (116 :: s) := by
  simp only [parseValue]
  rw [@skipWs_cons_nws 116 s rfl]
  simp only [List.isEmpty_cons, @peek_cons_nws 116 s rfl, Bool.false_eq_true, if_false]
  rw [if_neg (by norm_num), if_neg (by norm_num), if_neg (by norm_num),
    if_pos (Or.inl trivial)]

theorem parseValue_dispatch_false (f : Nat) (s : Bytes) :
    parseValue (f + 1) (102 :: s) = parseBoolean (102 :: s) := by
  simp only [parseValue]
  rw [@skipWs_cons_nws 102 s rfl]
  simp only [List.isEmpty_cons, @peek_cons_nws 102 s rfl, Bool.false_eq_true, if_false]
  rw [if_neg (by norm_num), if_neg (by norm_num), if_neg (by norm_num),
    if_pos (Or.inr trivial)]

theorem parseValue_dispatch_null (f : Nat) (s : Bytes) :
    parseValue (f + 1) (110 :: s) = parseNull (110 :: s) := by
  simp only [parseValue]
  rw [@skipWs_cons_nws 110 s rfl]
  simp only [List.isEmpty_cons, @peek_cons_nws 110 s rfl, Bool.false_eq_true, if_false]
  rw [if_neg (by norm_num), if_neg (by norm_num), if_neg (by norm_num),
    if_neg (by norm_num), if_pos trivial]

/-! ### Literal tokens -/

theorem parseBoolean_rt_true (rest : Bytes) :
    parseBoolean ([116, 114, 117, 101] ++ rest) = .ok (.boolean true, rest) := by
  simp only [List.cons_append, List.nil_append]
  rw [parseBoolean, @peek_cons_nws 116 _ rfl, if_pos rfl]
  rw [show (116 : Nat) :: 114 :: 117 :: 101 :: rest = [116, 114, 117, 101] ++ rest from rfl]
  rw [expectSeq_exact [116, 114, 117, 101] rest (by decide)]

theorem parseBoolean_rt_false (rest : Bytes) :
    parseBoolean ([102, 97, 108, 115, 101] ++ rest) = .ok (.boolean false, rest) := by
  simp only [List.cons_append, List.nil_append]
  rw [parseBoolean, @peek_cons_nws 102 _ rfl, if_neg (by norm_num), if_pos rfl]
  rw [show (102 : Nat) :: 97 :: 108 :: 115 :: 101 :: rest =
    [102, 97, 108, 115, 101] ++ rest from rfl]
  rw [expectSeq_exact [102, 97, 108, 115, 101] rest (by decide)]

theorem parseNull_rt (rest : Bytes) :
    parseNull ([110, 117, 108, 108] ++ rest) = .ok (.null, rest) := by
  simp only [List.cons_append, List.nil_append]
  rw [parseNull]
  rw [show (110 : Nat) :: 117 :: 108 :: 108 :: rest = [110, 117, 108, 108] ++ rest from rfl]
  rw [expectSeq_exact [110, 117, 108, 108] rest (by decide)]

/-! ### First byte of a serialized value -/

/-- Every non-pretty serialized value starts with a byte that is not
whitespace and none of the container/loop control bytes `]`, the closing
brace, or `,`. -/
theorem serV_head (v : JsonValue) (ind ci : Nat) (hv : goodV v = true) :
    ∃ c t, serializeValue false ind ci v = c :: t ∧ isWsByte c = false ∧
      c ≠ 93 ∧ c ≠ 125 ∧ c ≠ 44 := by
  cases v with
  | null => exact ⟨110, _, rfl, by decide, by decide, by decide, by decide⟩
  | boolean b =>
    cases b
    · exact ⟨102, _, rfl, by decide, by decide, by decide, by decide⟩
    · exact ⟨116, _, rfl, by decide, by decide, by decide, by decide⟩
  | number q =>
    have hden : q.den = 1 := by
      simp only [goodV, Bool.and_eq_true, beq_iff_eq, decide_eq_true_eq] at hv
      exact hv.1
    rcases lt_or_ge q.num 0 with hneg | hpos
    · refine ⟨45, natDigits q.num.natAbs, ?_, by decide, by decide, by decide, by decide⟩
      simp [serializeValue, serializeNumber, hden, intBytes, hneg]
    · obtain ⟨b, t, hbt, h48, h57, _⟩ := natDigits_head q.num.natAbs
      refine ⟨b, t, ?_, isWsByte_of_digit b (by
          simp only [isDigitByte, Bool.and_eq_true, decide_eq_true_eq]; omega),
        by omega, by omega, by omega⟩
      simp [serializeValue, serializeNumber, hden, intBytes, Int.not_lt.mpr hpos, hbt]
  | string s =>
    exact ⟨34, s.flatMap escapeByte ++ [34], rfl, by decide, by decide, by decide,
      by decide⟩
  | array xs =>
    obtain ⟨t, ht⟩ : ∃ t, serializeValue false ind ci (.array xs) = 91 :: t := ⟨_, rfl⟩
    exact ⟨91, t, ht, by decide, by decide, by decide, by decide⟩
  | object es =>
    obtain ⟨t, ht⟩ : ∃ t, serializeValue false ind ci (.object es) = 123 :: t := ⟨_, rfl⟩
    exact ⟨123, t, ht, by decide, by decide, by decide, by decide⟩

end Jansson

namespace Jansson

theorem jsizeV_pos (v : JsonValue) : 1 ≤ jsizeV v := by
  cases v <;> simp only [jsizeV] <;> omega

/-- Non-pretty array serialization, normalized. -/
theorem serArr_eq (ind ci : Nat) (xs : List JsonValue) :
    serializeValue false ind ci (.array xs) =
      91 :: (serializeItems false ind ci true xs ++ [93]) := by
  simp [serializeValue]

/-- Non-pretty object serialization, normalized. -/
theorem serObj_eq (ind ci : Nat) (es : List (Bytes × JsonValue)) :
    serializeValue false ind ci (.object es) =
      123 :: (serializeMembers false ind ci true es ++ [125]) := by
  simp [serializeValue]

/-- First array item carries no separator. -/
theorem serItems_head (ind ci : Nat) (x : JsonValue) (r : List JsonValue) :
    serializeItems false ind ci true (x :: r) =
      serializeValue false ind (ci + ind) x ++ serializeItems false ind ci false r := by
  simp [serializeItems]

/-- Later array items carry the `", "` separator. -/
theorem serItems_tail (ind ci : Nat) (y : JsonValue) (r2 : List JsonValue) :
    serializeItems false ind ci false (y :: r2) =
      44 :: 32 :: (serializeValue false ind (ci + ind) y ++
        serializeItems false ind ci false r2) := by
  simp [serializeItems]

/-- First object member carries no separator. -/
theorem serMembers_head (ind ci : Nat) (k : Bytes) (v : JsonValue)
    (r : List (Bytes × JsonValue)) :
    serializeMembers false ind ci true ((k, v) :: r) =
      escape k ++ (58 :: 32 :: (serializeValue false ind (ci + ind) v ++
        serializeMembers false ind ci false r)) := by
  simp [serializeMembers]

/-- Later object members carry the `", "` separator. -/
theorem serMembers_tail (ind ci : Nat) (k : Bytes) (v : JsonValue)
    (r2 : List (Bytes × JsonValue)) :
    serializeMembers false ind ci false ((k, v) :: r2) =
      44 :: 32 :: (escape k ++ (58 :: 32 :: (serializeValue false ind (ci + ind) v ++
        serializeMembers false ind ci false r2))) := by
  simp [serializeMembers]

mutual
/-- The value-level round trip: `parse_value` maps the non-pretty
serialization of a good tree, followed by a number-delimiting rest, back
to the tree and the rest. -/
theorem rt_val (v : JsonValue) (hv : goodV v = true) (ind ci : Nat) (rest : Bytes)
    (hrest : numDelim (peek rest) = true) (fuel : Nat) (hfuel : jsizeV v ≤ fuel) :
    parseValue fuel (serializeValue false ind ci v ++ rest) = .ok (v, rest) := by
  obtain ⟨f, rfl⟩ : ∃ f, fuel = f + 1 := ⟨fuel - 1, by have := jsizeV_pos v; omega⟩
  cases v with
  | null =>
    rw [show serializeValue false ind ci .null = [110, 117, 108, 108] from rfl]
    rw [show ([110, 117, 108, 108] : Bytes) ++ rest =
      110 :: ([117, 108, 108] ++ rest) from rfl]
    rw [parseValue_dispatch_null f _]
    rw [show (110 : Nat) :: ([117, 108, 108] ++ rest) =
      [110, 117, 108, 108] ++ rest from rfl]
    exact parseNull_rt rest
  | boolean b =>
    cases b
    · rw [show serializeValue false ind ci (.boolean false) =
        [102, 97, 108, 115, 101] from rfl]
      rw [show ([102, 97, 108, 115, 101] : Bytes) ++ rest =
        102 :: ([97, 108, 115, 101] ++ rest) from rfl]
      rw [parseValue_dispatch_false f _]
      rw [show (102 : Nat) :: ([97, 108, 115, 101] ++ rest) =
        [102, 97, 108, 115, 101] ++ rest from rfl]
      exact parseBoolean_rt_false rest
    · rw [show serializeValue false ind ci (.boolean true) =
        [116, 114, 117, 101] from rfl]
      rw [show ([116, 114, 117, 101] : Bytes) ++ rest =
        116 :: ([114, 117, 101] ++ rest) from rfl]
      rw [parseValue_dispatch_true f _]
      rw [show (116 : Nat) :: ([114, 117, 101] ++ rest) =
        [116, 114, 117, 101] ++ rest from rfl]
      exact parseBoolean_rt_true rest
  | number q =>
    have hden : q.den = 1 := by
      simp only [goodV, Bool.and_eq_true, beq_iff_eq, decide_eq_true_eq] at hv
      exact hv.1
    have hser : serializeValue false ind ci (.number q) = intBytes q.num := by
      simp [serializeValue, serializeNumber, hden]
    rw [hser]
    have hpn := parseNumber_rt q hden rest hrest
    rcases lt_or_ge q.num 0 with hneg | hpos
    · have hib : intBytes q.num = 45 :: natDigits q.num.natAbs := by
        simp [intBytes, hneg]
      rw [hib, show (45 :: natDigits q.num.natAbs) ++ rest =
        45 :: (natDigits q.num.natAbs ++ rest) from rfl]
      rw [parseValue_dispatch_number f 45 _ rfl (Or.inl rfl) (by decide) (by decide)
        (by decide) (by decide) (by decide) (by decide)]
      rw [hib, show (45 :: natDigits q.num.natAbs) ++ rest =
        45 :: (natDigits q.num.natAbs ++ rest) from rfl] at hpn
      exact hpn
    · have hib : intBytes q.num = natDigits q.num.natAbs := by
        simp [intBytes, Int.not_lt.mpr hpos]
      obtain ⟨b, t, hbt, h48, h57, _⟩ := natDigits_head q.num.natAbs
      rw [hib, hbt, show (b :: t) ++ rest = b :: (t ++ rest) from rfl]
      rw [parseValue_dispatch_number f b _ (isWsByte_of_digit b (by
          simp only [isDigitByte, Bool.and_eq_true, decide_eq_true_eq]; omega))
        (Or.inr (by simp only [isDigitByte, Bool.and_eq_true, decide_eq_true_eq]; omega))
        (by omega) (by omega) (by omega) (by omega) (by omega) (by omega)]
      rw [hib, hbt, show (b :: t) ++ rest = b :: (t ++ rest) from rfl] at hpn
      exact hpn
  | string s =>
    have hs : ∀ b ∈ s, b ≠ 32 := by
      simp only [goodV, List.all_eq_true, Bool.not_eq_true',
        beq_eq_false_iff_ne, ne_eq] at hv
      exact hv
    rw [show serializeValue false ind ci (.string s) = escape s from rfl]
    have he : escape s ++ rest = 34 :: (s.flatMap escapeByte ++ (34 :: rest)) := by
      simp [escape]
    rw [he, parseValue_dispatch_string f _, ← he]
    exact parseString_rt s hs rest
  | array xs =>
    simp only [goodV] at hv
    simp only [jsizeV] at hfuel
    obtain ⟨g, rfl⟩ : ∃ g, f = g + 1 := ⟨f - 1, by omega⟩
    rw [serArr_eq ind ci xs]
    rw [show (91 :: (serializeItems false ind ci true xs ++ [93])) ++ rest =
      91 :: ((serializeItems false ind ci true xs ++ [93]) ++ rest) from rfl]
    rw [parseValue_dispatch_array (g + 1) _]
    simp only [parseArray]
    rw [show expect 91 (91 :: ((serializeItems false ind ci true xs ++ [93]) ++ rest)) =
      .ok ((serializeItems false ind ci true xs ++ [93]) ++ rest) from by
        rw [expect, @consume_cons_nws 91 _ rfl]
        simp]
    cases xs with
    | nil =>
      rw [show serializeItems false ind ci true ([] : List JsonValue) = [] from rfl]
      rw [show (([] : Bytes) ++ [93]) ++ rest = 93 :: rest from by simp]
      have hsw : skipWs (93 :: rest) = 93 :: rest := @skipWs_cons_nws 93 rest rfl
      have h93 : peek (93 :: rest) = 93 := @peek_cons_nws 93 rest rfl
      have hex : expect 93 (93 :: rest) = .ok rest := by
        rw [expect, @consume_cons_nws 93 _ rfl]
        simp
      simp [hsw, h93, hex]
    | cons x r =>
      simp only [goodL, Bool.and_eq_true] at hv
      rw [serItems_head ind ci x r]
      rw [show ((serializeValue false ind (ci + ind) x ++
          serializeItems false ind ci false r) ++ [93]) ++ rest =
        serializeValue false ind (ci + ind) x ++
          (serializeItems false ind ci false r ++ (93 :: rest)) from by simp]
      obtain ⟨c, t, hct, hcw, hc93, _, _⟩ := serV_head x ind (ci + ind) hv.1
      have hsw : skipWs (serializeValue false ind (ci + ind) x ++
          (serializeItems false ind ci false r ++ (93 :: rest))) =
          serializeValue false ind (ci + ind) x ++
          (serializeItems false ind ci false r ++ (93 :: rest)) := by
        rw [hct]
        simp only [List.cons_append]
        exact @skipWs_cons_nws c _ hcw
      have hpk : peek (serializeValue false ind (ci + ind) x ++
          (serializeItems false ind ci false r ++ (93 :: rest))) = c := by
        rw [hct]
        simp only [List.cons_append]
        exact @peek_cons_nws c _ hcw
      simp only [hsw, hpk, if_neg hc93]
      exact rt_items x r hv.1 hv.2 ind ci [] rest g (by
        simp only [jsizeL] at hfuel ⊢; omega)
  | object es =>
    simp only [goodV, Bool.and_eq_true] at hv
    simp only [jsizeV] at hfuel
    obtain ⟨g, rfl⟩ : ∃ g, f = g + 1 := ⟨f - 1, by omega⟩
    rw [serObj_eq ind ci es]
    rw [show (123 :: (serializeMembers false ind ci true es ++ [125])) ++ rest =
      123 :: ((serializeMembers false ind ci true es ++ [125]) ++ rest) from rfl]
    rw [parseValue_dispatch_object (g + 1) _]
    simp only [parseObject]
    rw [show expect 123 (123 :: ((serializeMembers false ind ci true es ++ [125]) ++ rest)) =
      .ok ((serializeMembers false ind ci true es ++ [125]) ++ rest) from by
        rw [expect, @consume_cons_nws 123 _ rfl]
        simp]
    cases es with
    | nil =>
      rw [show serializeMembers false ind ci true ([] : List (Bytes × JsonValue)) = []
        from rfl]
      rw [show (([] : Bytes) ++ [125]) ++ rest = 125 :: rest from by simp]
      have hsw : skipWs (125 :: rest) = 125 :: rest := @skipWs_cons_nws 125 rest rfl
      have h125 : peek (125 :: rest) = 125 := @peek_cons_nws 125 rest rfl
      have hex : expect 125 (125 :: rest) = .ok rest := by
        rw [expect, @consume_cons_nws 125 _ rfl]
        simp
      simp [hsw, h125, hex]
    | cons e r =>
      obtain ⟨k, v⟩ := e
      simp only [goodE, Bool.and_eq_true] at hv
      rw [serMembers_head ind ci k v r]
      rw [show ((escape k ++ (58 :: 32 :: (serializeValue false ind (ci + ind) v ++
          serializeMembers false ind ci false r))) ++ [125]) ++ rest =
        escape k ++ (58 :: 32 :: (serializeValue false ind (ci + ind) v ++
          (serializeMembers false ind ci false r ++ (125 :: rest)))) from by simp]
      have hesc : escape k ++ (58 :: 32 :: (serializeValue false ind (ci + ind) v ++
          (serializeMembers false ind ci false r ++ (125 :: rest)))) =
          34 :: (k.flatMap escapeByte ++ (34 :: (58 :: 32 ::
            (serializeValue false ind (ci + ind) v ++
             (serializeMembers false ind ci false r ++ (125 :: rest)))))) := by
        simp [escape]
      have hsw : skipWs (escape k ++ (58 :: 32 :: (serializeValue false ind (ci + ind) v ++
          (serializeMembers false ind ci false r ++ (125 :: rest))))) =
          escape k ++ (58 :: 32 :: (serializeValue false ind (ci + ind) v ++
          (serializeMembers false ind ci false r ++ (125 :: rest)))) := by
        rw [hesc]
        exact @skipWs_cons_nws 34 _ rfl
      have hpk : peek (escape k ++ (58 :: 32 :: (serializeValue false ind (ci + ind) v ++
          (serializeMembers false ind ci false r ++ (125 :: rest))))) = 34 := by
        rw [hesc]
        exact @peek_cons_nws 34 _ rfl
      simp only [hsw, hpk, if_neg (show ¬ (34 : Nat) = 125 by norm_num)]
      exact rt_members k v r hv.2.1.1 hv.2.1.2 hv.2.2 hv.1 ind ci [] rest
        (by simp) g (by simp only [jsizeE] at hfuel ⊢; omega)

termination_by fuel

/-- The array element loop round trip. -/
theorem rt_items (x : JsonValue) (r : List JsonValue) (hx : goodV x = true)
    (hr : goodL r = true) (ind ci : Nat) (acc : List JsonValue) (rest : Bytes)
    (fuel : Nat) (hfuel : jsizeL (x :: r) ≤ fuel) :
    parseArrayLoop fuel acc
      (serializeValue false ind (ci + ind) x ++
        (serializeItems false ind ci false r ++ (93 :: rest)))
      = .ok (.array (acc ++ x :: r), rest) := by
  obtain ⟨f, rfl⟩ : ∃ f, fuel = f + 1 := ⟨fuel - 1, by
    simp only [jsizeL] at hfuel; omega⟩
  simp only [parseArrayLoop]
  have hx1 : parseValue f (serializeValue false ind (ci + ind) x ++
      (serializeItems false ind ci false r ++ (93 :: rest))) =
      .ok (x, serializeItems false ind ci false r ++ (93 :: rest)) := by
    apply rt_val x hx ind (ci + ind) _ ?_ f (by simp only [jsizeL] at hfuel; omega)
    cases r with
    | nil =>
      rw [show serializeItems false ind ci false ([] : List JsonValue) = [] from rfl]
      rw [show ([] : Bytes) ++ (93 :: rest) = 93 :: rest from rfl]
      rw [@peek_cons_nws 93 rest rfl]
      rfl
    | cons y r2 =>
      rw [serItems_tail ind ci y r2]
      simp only [List.cons_append]
      rw [@peek_cons_nws 44 _ rfl]
      rfl
  simp only [hx1]
  cases r with
  | nil =>
    rw [show serializeItems false ind ci false ([] : List JsonValue) = [] from rfl]
    simp only [List.nil_append]
    have hsw : skipWs (93 :: rest) = 93 :: rest := @skipWs_cons_nws 93 rest rfl
    have h93 : peek (93 :: rest) = 93 := @peek_cons_nws 93 rest rfl
    have hex : expect 93 (93 :: rest) = .ok rest := by
      rw [expect, @consume_cons_nws 93 _ rfl]
      simp
    simp [hsw, h93, hex]
  | cons y r2 =>
    simp only [goodL, Bool.and_eq_true] at hr
    rw [serItems_tail ind ci y r2]
    simp only [List.cons_append, List.append_assoc]
    have hsw : skipWs (44 :: 32 :: (serializeValue false ind (ci + ind) y ++
        (serializeItems false ind ci false r2 ++ (93 :: rest)))) =
        44 :: 32 :: (serializeValue false ind (ci + ind) y ++
        (serializeItems false ind ci false r2 ++ (93 :: rest))) :=
      @skipWs_cons_nws 44 _ rfl
    have h44 : peek (44 :: 32 :: (serializeValue false ind (ci + ind) y ++
        (serializeItems false ind ci false r2 ++ (93 :: rest)))) = 44 :=
      @peek_cons_nws 44 _ rfl
    have hcons : consume (44 :: 32 :: (serializeValue false ind (ci + ind) y ++
        (serializeItems false ind ci false r2 ++ (93 :: rest)))) =
        (44, 32 :: (serializeValue false ind (ci + ind) y ++
        (serializeItems false ind ci false r2 ++ (93 :: rest)))) :=
      @consume_cons_nws 44 _ rfl
    obtain ⟨c, t, hct, hcw, _, _, _⟩ := serV_head y ind (ci + ind) hr.1
    have hsw2 : skipWs (32 :: (serializeValue false ind (ci + ind) y ++
        (serializeItems false ind ci false r2 ++ (93 :: rest)))) =
        serializeValue false ind (ci + ind) y ++
        (serializeItems false ind ci false r2 ++ (93 :: rest)) := by
      rw [hct]
      simp only [List.cons_append]
      exact skipWs_space_cons c _ hcw
    simp only [hsw, h44, if_neg (show ¬ (44 : Nat) = 93 by norm_num), hcons]
    rw [if_pos trivial, hsw2]
    rw [rt_items y r2 hr.1 hr.2 ind ci (acc ++ [x]) rest f (by
      simp only [jsizeL] at hfuel ⊢; omega)]
    simp

termination_by fuel

/-- The object member loop round trip. -/
theorem rt_members (k : Bytes) (v : JsonValue) (r : List (Bytes × JsonValue))
    (hk : goodKey k = true) (hv : goodV v = true) (hr : goodE r = true)
    (hnd : distinctKeys (((k, v) :: r).map Prod.fst) = true)
    (ind ci : Nat) (acc : List (Bytes × JsonValue)) (rest : Bytes)
    (hacc : ∀ e ∈ acc, ∀ e2 ∈ (k, v) :: r, e.1 ≠ e2.1)
    (fuel : Nat) (hfuel : jsizeE ((k, v) :: r) ≤ fuel) :
    parseObjectLoop fuel acc
      (escape k ++ (58 :: 32 :: (serializeValue false ind (ci + ind) v ++
        (serializeMembers false ind ci false r ++ (125 :: rest)))))
      = .ok (.object (acc ++ (k, v) :: r), rest) := by
  obtain ⟨f, rfl⟩ : ∃ f, fuel = f + 1 := ⟨fuel - 1, by
    simp only [jsizeE] at hfuel; omega⟩
  have hkb : ∀ b ∈ k, b ≠ 32 := by
    simp only [goodKey, List.all_eq_true, Bool.not_eq_true',
      beq_eq_false_iff_ne, ne_eq] at hk
    exact hk
  simp only [List.map_cons, distinctKeys, Bool.and_eq_true, decide_eq_true_eq] at hnd
  simp only [parseObjectLoop]
  rw [parseRawString_rt k hkb _]
  have hsw58 : skipWs (58 :: 32 :: (serializeValue false ind (ci + ind) v ++
      (serializeMembers false ind ci false r ++ (125 :: rest)))) =
      58 :: 32 :: (serializeValue false ind (ci + ind) v ++
      (serializeMembers false ind ci false r ++ (125 :: rest))) :=
    @skipWs_cons_nws 58 _ rfl
  have hex58 : expect 58 (58 :: 32 :: (serializeValue false ind (ci + ind) v ++
      (serializeMembers false ind ci false r ++ (125 :: rest)))) =
      .ok (32 :: (serializeValue false ind (ci + ind) v ++
      (serializeMembers false ind ci false r ++ (125 :: rest)))) := by
    rw [expect, @consume_cons_nws 58 _ rfl]
    simp
  obtain ⟨c, t, hct, hcw, _, _, _⟩ := serV_head v ind (ci + ind) hv
  have hsw2 : skipWs (32 :: (serializeValue false ind (ci + ind) v ++
      (serializeMembers false ind ci false r ++ (125 :: rest)))) =
      serializeValue false ind (ci + ind) v ++
      (serializeMembers false ind ci false r ++ (125 :: rest)) := by
    rw [hct]
    simp only [List.cons_append]
    exact skipWs_space_cons c _ hcw
  have hval : parseValue f (serializeValue false ind (ci + ind) v ++
      (serializeMembers false ind ci false r ++ (125 :: rest))) =
      .ok (v, serializeMembers false ind ci false r ++ (125 :: rest)) := by
    apply rt_val v hv ind (ci + ind) _ ?_ f (by simp only [jsizeE] at hfuel; omega)
    cases r with
    | nil =>
      rw [show serializeMembers false ind ci false ([] : List (Bytes × JsonValue)) = []
        from rfl]
      rw [show ([] : Bytes) ++ (125 :: rest) = 125 :: rest from rfl]
      rw [@peek_cons_nws 125 rest rfl]
      rfl
    | cons e2 r2 =>
      obtain ⟨k2, v2⟩ := e2
      rw [serMembers_tail ind ci k2 v2 r2]
      simp only [List.cons_append]
      rw [@peek_cons_nws 44 _ rfl]
      rfl
  have hset : JsonObject.set acc k v = acc ++ [(k, v)] :=
    set_append acc k v (fun e he => hacc e he (k, v) (List.mem_cons_self ..))
  simp only [hsw58, hex58, hsw2, hval, hset]
  cases r with
  | nil =>
    rw [show serializeMembers false ind ci false ([] : List (Bytes × JsonValue)) = []
      from rfl]
    simp only [List.nil_append]
    have hsw : skipWs (125 :: rest) = 125 :: rest := @skipWs_cons_nws 125 rest rfl
    have h125 : peek (125 :: rest) = 125 := @peek_cons_nws 125 rest rfl
    have hex : expect 125 (125 :: rest) = .ok rest := by
      rw [expect, @consume_cons_nws 125 _ rfl]
      simp
    simp [hsw, h125, hex]
  | cons e2 r2 =>
    obtain ⟨k2, v2⟩ := e2
    simp only [goodE, Bool.and_eq_true] at hr
    rw [serMembers_tail ind ci k2 v2 r2]
    simp only [List.cons_append, List.append_assoc]
    have hsw3 : skipWs (44 :: 32 :: (escape k2 ++ (58 :: 32 ::
        (serializeValue false ind (ci + ind) v2 ++
         (serializeMembers false ind ci false r2 ++ (125 :: rest)))))) =
        44 :: 32 :: (escape k2 ++ (58 :: 32 ::
        (serializeValue false ind (ci + ind) v2 ++
         (serializeMembers false ind ci false r2 ++ (125 :: rest))))) :=
      @skipWs_cons_nws 44 _ rfl
    have h44 : peek (44 :: 32 :: (escape k2 ++ (58 :: 32 ::
        (serializeValue false ind (ci + ind) v2 ++
         (serializeMembers false ind ci false r2 ++ (125 :: rest)))))) = 44 :=
      @peek_cons_nws 44 _ rfl
    have hcons : consume (44 :: 32 :: (escape k2 ++ (58 :: 32 ::
        (serializeValue false ind (ci + ind) v2 ++
         (serializeMembers false ind ci false r2 ++ (125 :: rest)))))) =
        (44, 32 :: (escape k2 ++ (58 :: 32 ::
        (serializeValue false ind (ci + ind) v2 ++
         (serializeMembers false ind ci false r2 ++ (125 :: rest)))))) :=
      @consume_cons_nws 44 _ rfl
    have hesck2 : escape k2 ++ (58 :: 32 ::
        (serializeValue false ind (ci + ind) v2 ++
         (serializeMembers false ind ci false r2 ++ (125 :: rest)))) =
        34 :: (k2.flatMap escapeByte ++ (34 :: (58 :: 32 ::
        (serializeValue false ind (ci + ind) v2 ++
         (serializeMembers false ind ci false r2 ++ (125 :: rest)))))) := by
      simp [escape]
    have hsw4 : skipWs (32 :: (escape k2 ++ (58 :: 32 ::
        (serializeValue false ind (ci + ind) v2 ++
         (serializeMembers false ind ci false r2 ++ (125 :: rest)))))) =
        escape k2 ++ (58 :: 32 ::
        (serializeValue false ind (ci + ind) v2 ++
         (serializeMembers false ind ci false r2 ++ (125 :: rest)))) := by
      rw [hesck2]
      exact skipWs_space_cons 34 _ rfl
    simp only [hsw3, h44, if_neg (show ¬ (44 : Nat) = 125 by norm_num), hcons]
    rw [if_pos trivial, hsw4]
    have hacc2 : ∀ e ∈ acc ++ [(k, v)], ∀ e2 ∈ (k2, v2) :: r2, e.1 ≠ e2.1 := by
      intro e he e2 he2
      rcases List.mem_append.mp he with h1 | h1
      · exact hacc e h1 e2 (List.mem_cons_of_mem _ he2)
      · simp only [List.mem_singleton] at h1
        subst h1
        intro hkeq
        exact hnd.1 (by
          rw [show k = e2.1 from hkeq]
          exact List.mem_map.mpr ⟨e2, he2, rfl⟩)
    rw [rt_members k2 v2 r2 hr.1.1 hr.1.2 hr.2 hnd.2 ind ci (acc ++ [(k, v)]) rest
      hacc2 f (by simp only [jsizeE] at hfuel ⊢; omega)]
    simp
termination_by fuel
end

end Jansson

namespace Jansson

mutual
/-- The serialized form is long enough to cover the parser fuel needs. -/
theorem serLenV (v : JsonValue) (ind ci : Nat) (hv : goodV v = true) :
    jsizeV v + 1 ≤ 2 * (serializeValue false ind ci v).length := by
  cases v with
  | null => simp [jsizeV, serializeValue]
  | boolean b => cases b <;> simp [jsizeV, serializeValue]
  | number q =>
    have hden : q.den = 1 := by
      simp only [goodV, Bool.and_eq_true, beq_iff_eq, decide_eq_true_eq] at hv
      exact hv.1
    have h1 : 1 ≤ (natDigits q.num.natAbs).length :=
      List.length_pos.mpr (natDigits_ne_nil _)
    have hser : serializeValue false ind ci (.number q) = intBytes q.num := by
      simp [serializeValue, serializeNumber, hden]
    rw [hser, intBytes]
    simp only [jsizeV, List.length_append]
    by_cases hn : q.num < 0 <;> simp [hn] <;> omega
  | string s =>
    simp only [jsizeV]
    rw [show serializeValue false ind ci (.string s) = escape s from rfl]
    simp [escape]
  | array xs =>
    simp only [goodV] at hv
    rw [serArr_eq]
    simp only [jsizeV, List.length_cons, List.length_append]
    have := serLenL xs ind ci true hv
    omega
  | object es =>
    simp only [goodV, Bool.and_eq_true] at hv
    rw [serObj_eq]
    simp only [jsizeV, List.length_cons, List.length_append]
    have := serLenE es ind ci true hv.2
    omega

/-- List form of the length bound. -/
theorem serLenL (xs : List JsonValue) (ind ci : Nat) (first : Bool)
    (h : goodL xs = true) :
    jsizeL xs ≤ 2 * (serializeItems false ind ci first xs).length := by
  cases xs with
  | nil => simp [jsizeL, serializeItems]
  | cons x r =>
    simp only [goodL, Bool.and_eq_true] at h
    have h1 := serLenV x ind (ci + ind) h.1
    have h2 := serLenL r ind ci false h.2
    simp only [jsizeL, serializeItems]
    cases first <;> simp [List.length_append] <;> omega

/-- Entries form of the length bound. -/
theorem serLenE (es : List (Bytes × JsonValue)) (ind ci : Nat) (first : Bool)
    (h : goodE es = true) :
    jsizeE es ≤ 2 * (serializeMembers false ind ci first es).length := by
  cases es with
  | nil => simp [jsizeE, serializeMembers]
  | cons e r =>
    obtain ⟨k, v⟩ := e
    simp only [goodE, Bool.and_eq_true] at h
    have h1 := serLenV v ind (ci + ind) h.1.2
    have h2 := serLenE r ind ci false h.2
    simp only [jsizeE, serializeMembers]
    cases first <;> simp [List.length_append, escape] <;> omega
end

mutual
/-- Good trees are well-formed (their objects have distinct keys at every
level), so reflexivity of `equals` applies to them. -/
theorem wfVal_of_goodV : ∀ v : JsonValue, goodV v = true → wfVal v = true
  | .null, _ => rfl
  | .boolean _, _ => rfl
  | .number _, _ => rfl
  | .string _, _ => rfl
  | .array xs, h => by
    simp only [wfVal]
    exact wfList_of_goodL xs (by simpa [goodV] using h)
  | .object es, h => by
    simp only [goodV, Bool.and_eq_true] at h
    simp only [wfVal, Bool.and_eq_true]
    exact ⟨h.1, wfEntries_of_goodE es h.2⟩

/-- List form. -/
theorem wfList_of_goodL : ∀ xs : List JsonValue, goodL xs = true → wfList xs = true
  | [], _ => rfl
  | x :: r, h => by
    simp only [goodL, Bool.and_eq_true] at h
    simp only [wfList, Bool.and_eq_true]
    exact ⟨wfVal_of_goodV x h.1, wfList_of_goodL r h.2⟩

/-- Entries form. -/
theorem wfEntries_of_goodE : ∀ es : List (Bytes × JsonValue),
    goodE es = true → wfEntries es = true
  | [], _ => rfl
  | (k, v) :: r, h => by
    simp only [goodE, Bool.and_eq_true] at h
    simp only [wfEntries, Bool.and_eq_true]
    exact ⟨wfVal_of_goodV v h.1.2, wfEntries_of_goodE r h.2⟩
end

/-- C2 amended: the round trip `parse (serialize v, pretty=false)` returns
exactly `v` — and hence a tree `equals`-equal to `v` — for every tree in
which strings and object keys contain no space byte (32), numbers are
integer-valued doubles within the serializer's int64 cast range, and
object key sets are duplicate-free. The restrictions are forced by the
code, not convenience: a space inside a string is consumed silently by
the whitespace-skipping reader (see the counterexample theorem), and
non-integer doubles are printed with 6 significant digits, which loses
digits in general. -/
theorem roundtrip_parse_serialize (v : JsonValue) (hv : goodV v = true) (indent : Nat) :
    parse (serialize v false indent) = .ok v ∧ eqVal v v = true := by
  constructor
  · have hlen := serLenV v indent 0 hv
    have h1 := rt_val v hv indent 0 [] rfl (parseFuel (serializeValue false indent 0 v))
      (by simp only [parseFuel]; omega)
    rw [List.append_nil] at h1
    rw [serialize, parse, h1]
    rfl
  · exact eqVal_refl v (wfVal_of_goodV v hv)

/-- Witness: the object mapping key `"key"` to the array
`[1, "hi", true, null]` round-trips through non-pretty serialization at
indent 2. -/
theorem roundtrip_parse_serialize_witness :
    goodV (.object [([107, 101, 121],
      .array [.number 1, .string [104, 105], .boolean true, .null])]) = true ∧
    parse (serialize (.object [([107, 101, 121],
      .array [.number 1, .string [104, 105], .boolean true, .null])]) false 2) =
      .ok (.object [([107, 101, 121],
        .array [.number 1, .string [104, 105], .boolean true, .null])]) ∧
    eqVal (.object [([107, 101, 121],
        .array [.number 1, .string [104, 105], .boolean true, .null])])
      (.object [([107, 101, 121],
        .array [.number 1, .string [104, 105], .boolean true, .null])]) = true :=
  ⟨by decide,
   (roundtrip_parse_serialize (.object [([107, 101, 121],
      .array [.number 1, .string [104, 105], .boolean true, .null])]) (by decide) 2).1,
   (roundtrip_parse_serialize (.object [([107, 101, 121],
      .array [.number 1, .string [104, 105], .boolean true, .null])]) (by decide) 2).2⟩

/-- C2 counterexample: the tree `String "a b"` is built programmatically
with no NaN/Infinity number, yet parsing its non-pretty serialization
returns `String "ab"` — the space byte is eaten inside the re-parsed
string literal — and no parse result is `equals`-equal to the original
(bytes: 97 `a`, 32 space, 98 `b`). -/
theorem roundtrip_space_in_string_lost :
    parse (serialize (.string [97, 32, 98]) false 2) = .ok (.string [97, 98]) ∧
    eqVal (.string [97, 98]) (.string [97, 32, 98]) = false ∧
    (∀ w, parse (serialize (.string [97, 32, 98]) false 2) = .ok w →
      eqVal w (.string [97, 32, 98]) = false) := by
  have h1 : parse (serialize (.string [97, 32, 98]) false 2) = .ok (.string [97, 98]) := rfl
  refine ⟨h1, rfl, fun w hw => ?_⟩
  rw [h1] at hw
  injection hw with hw
  subst hw
  rfl

end Jansson
